import Mathlib

/-
A shallow embedding, in Lean 4, of the core of `llm_diagram_processor.py`
(classes `CodeBlockDetector` and `SyntaxValidator`), together with theorems
settling the spec claims about it.

Python strings are modelled as `List Char` (sequences of Unicode code
points).  Python character classes (`\w`, `\s`, `str.lower`, `str.strip`)
are modelled at ASCII scope, which covers every character the program's
patterns, keyword tables and repair rules mention.  The floating-point
comparison `special_chars / total_chars > 0.2` is modelled by the exact
rational test `total < 5 * special`; the two agree except for lines longer
than about 2^52 characters, where binary rounding of `0.2` could differ.
-/

namespace LDP

/-- Python whitespace, as used by `str.strip` and the regex class `\s`
(ASCII scope). -/
def isPySpace (c : Char) : Bool :=
  c == ' ' || c == '\t' || c == '\n' || c == '\r' || c == '\x0b' || c == '\x0c'

/-- The regex class `\w` (ASCII scope): letters, digits, underscore. -/
def isWordChar (c : Char) : Bool :=
  (decide ('a' ≤ c) && decide (c ≤ 'z')) ||
  (decide ('A' ≤ c) && decide (c ≤ 'Z')) ||
  (decide ('0' ≤ c) && decide (c ≤ '9')) || c == '_'

/-- `str.lower` (ASCII scope). -/
def pyLower (l : List Char) : List Char := l.map Char.toLower

/-- `str.lstrip()`. -/
def pyLStrip (l : List Char) : List Char := l.dropWhile isPySpace

/-- `str.rstrip()`. -/
def pyRStrip (l : List Char) : List Char := (l.reverse.dropWhile isPySpace).reverse

/-- `str.strip()`. -/
def pyStrip (l : List Char) : List Char := pyLStrip (pyRStrip l)

/-- `str.startswith(pat)`. -/
def startsWithL (l pat : List Char) : Bool := decide (l.take pat.length = pat)

/-- `str.endswith(pat)`. -/
def endsWithL (l pat : List Char) : Bool :=
  decide (l.drop (l.length - pat.length) = pat)

/-- Python's substring test `sub in l`. -/
def pyContains (l sub : List Char) : Bool :=
  match l with
  | [] => decide (([] : List Char).take sub.length = sub)
  | _ :: t => decide (l.take sub.length = sub) || pyContains t sub

/-- `text.split('\n')`. -/
def pySplit : List Char → List (List Char)
  | [] => [[]]
  | c :: rest =>
    if c = '\n' then [] :: pySplit rest
    else
      match pySplit rest with
      | [] => [[c]]
      | r :: rs => (c :: r) :: rs

/-- `'\n'.join(lines)`. -/
def pyJoin : List (List Char) → List Char
  | [] => []
  | [x] => x
  | x :: y :: rest => x ++ '\n' :: pyJoin (y :: rest)

/-- `sum(len(lines[j]) + 1 for j in range(n))`: character offset of line `n`. -/
def lineOffset (lines : List (List Char)) (n : Nat) : Nat :=
  ((lines.take n).map (fun l => l.length + 1)).sum

/-- Decimal rendering of a natural number, as Python's `str(n)` produces
inside an f-string.  Fuel-based structural recursion so that the kernel can
evaluate it; with `n < fuel` the fuel never runs out. -/
def natDecAux : Nat → Nat → List Char → List Char
  | 0, _, acc => acc
  | fuel + 1, n, acc =>
    if n < 10 then Nat.digitChar n :: acc
    else natDecAux fuel (n / 10) (Nat.digitChar (n % 10) :: acc)

/-- Decimal rendering of a natural number. -/
def natDec (n : Nat) : List Char := natDecAux (n + 1) n []

-- ------------------------------------------------------------------
-- Small library lemmas about the Python-string primitives
-- ------------------------------------------------------------------

theorem takeWhile_length_le (p : Char → Bool) (l : List Char) :
    (l.takeWhile p).length ≤ l.length := by
  induction l with
  | nil => simp [List.takeWhile]
  | cons c t ih =>
    by_cases h : p c = true
    · simp only [List.takeWhile, h]
      simpa using ih
    · simp [List.takeWhile, h]

theorem pySplit_ne_nil (l : List Char) : pySplit l ≠ [] := by
  induction l with
  | nil => simp [pySplit]
  | cons c rest ih =>
    by_cases h : c = '\n'
    · simp [pySplit, h]
    · simp only [pySplit, if_neg h]
      cases hr : pySplit rest with
      | nil => simp
      | cons r rs => simp

theorem pyJoin_pySplit (l : List Char) : pyJoin (pySplit l) = l := by
  induction l with
  | nil => rfl
  | cons c rest ih =>
    by_cases h : c = '\n'
    · subst h
      simp only [pySplit, if_pos rfl]
      cases hr : pySplit rest with
      | nil => exact absurd hr (pySplit_ne_nil rest)
      | cons r rs =>
        rw [hr] at ih
        simp [pyJoin, ih]
    · simp only [pySplit, if_neg h]
      cases hr : pySplit rest with
      | nil => exact absurd hr (pySplit_ne_nil rest)
      | cons r rs =>
        rw [hr] at ih
        cases rs with
        | nil => simp [pyJoin] at ih ⊢; simp [ih]
        | cons y ys =>
          simp only [pyJoin] at ih ⊢
          simp [← ih]

theorem pyJoin_cons (z : List Char) (zs : List (List Char)) (h : zs ≠ []) :
    pyJoin (z :: zs) = z ++ '\n' :: pyJoin zs := by
  cases zs with
  | nil => exact absurd rfl h
  | cons w ws => rfl

theorem pyJoin_append (A B : List (List Char)) (hA : A ≠ []) (hB : B ≠ []) :
    pyJoin (A ++ B) = pyJoin A ++ '\n' :: pyJoin B := by
  induction A with
  | nil => exact absurd rfl hA
  | cons x A' ih =>
    cases A' with
    | nil =>
      rw [List.singleton_append, pyJoin_cons x B hB]
      rfl
    | cons y ys =>
      have hA' : (y :: ys : List (List Char)) ≠ [] := by simp
      have h2 := ih hA'
      rw [List.cons_append, pyJoin_cons x ((y :: ys) ++ B) (by simp), h2,
          pyJoin_cons x (y :: ys) hA']
      simp

theorem pyJoin_length_ge_head (x : List Char) (rest : List (List Char)) :
    x.length ≤ (pyJoin (x :: rest)).length := by
  cases rest with
  | nil => simp [pyJoin]
  | cons y ys => simp [pyJoin]

/-- Dropping the cumulative offset of line `a` from the joined text yields
the join of the remaining lines. -/
theorem pyJoin_drop_lineOffset (L : List (List Char)) (a : Nat) (h : a < L.length) :
    (pyJoin L).drop (lineOffset L a) = pyJoin (L.drop a) := by
  induction L generalizing a with
  | nil => simp at h
  | cons x L' ih =>
    cases a with
    | zero => simp [lineOffset]
    | succ a' =>
      have hL' : L' ≠ [] := by
        intro hc; rw [hc] at h; simp at h
      have ha' : a' < L'.length := by simpa using h
      have hjoin : pyJoin (x :: L') = x ++ '\n' :: pyJoin L' := pyJoin_cons x L' hL'
      have hoff : lineOffset (x :: L') (a' + 1) = (x.length + 1) + lineOffset L' a' := by
        simp [lineOffset, List.take_succ_cons]
      rw [hjoin, hoff, List.drop_succ_cons]
      have h1 : (x ++ '\n' :: pyJoin L').drop (x.length + 1 + lineOffset L' a') =
          ('\n' :: pyJoin L').drop (1 + lineOffset L' a') := by
        rw [show x.length + 1 + lineOffset L' a' = x.length + (1 + lineOffset L' a') by omega]
        rw [← List.drop_drop]
        congr 1
        exact List.drop_left x ('\n' :: pyJoin L')
      rw [h1]
      have h2 : ('\n' :: pyJoin L').drop (1 + lineOffset L' a') =
          (pyJoin L').drop (lineOffset L' a') := by
        rw [Nat.add_comm 1 (lineOffset L' a'), ← List.drop_drop]
        simp
      rw [h2]
      exact ih a' ha'

-- ------------------------------------------------------------------
-- Decimal rendering: round trip and injectivity
-- ------------------------------------------------------------------

/-- Decimal parser used only to prove `natDec` injective. -/
def decVal (l : List Char) : Nat :=
  l.foldl (fun a c => a * 10 + (c.toNat - 48)) 0

theorem natDecAux_fuel (f1 f2 n : Nat) (acc : List Char)
    (h1 : n < f1) (h2 : n < f2) :
    natDecAux f1 n acc = natDecAux f2 n acc := by
  induction n using Nat.strong_induction_on generalizing f1 f2 acc with
  | _ n ih =>
    match f1, f2 with
    | f1' + 1, f2' + 1 =>
      by_cases h : n < 10
      · simp [natDecAux, h]
      · simp only [natDecAux, if_neg h]
        exact ih (n / 10) (Nat.div_lt_self (by omega) (by omega)) f1' f2' _
          (by omega) (by omega)

theorem natDecAux_append (f n : Nat) (acc : List Char) (h : n < f) :
    natDecAux f n acc = natDecAux f n [] ++ acc := by
  induction n using Nat.strong_induction_on generalizing f acc with
  | _ n ih =>
    match f with
    | f' + 1 =>
      by_cases h10 : n < 10
      · simp [natDecAux, h10]
      · simp only [natDecAux, if_neg h10]
        have hlt : n / 10 < n := Nat.div_lt_self (by omega) (by omega)
        have hf : n / 10 < f' := by omega
        rw [ih (n / 10) hlt f' (Nat.digitChar (n % 10) :: acc) hf,
          ih (n / 10) hlt f' [Nat.digitChar (n % 10)] hf]
        simp

theorem natDec_eq_step (n : Nat) (h : ¬ n < 10) :
    natDec n = natDec (n / 10) ++ [Nat.digitChar (n % 10)] := by
  rw [natDec, natDecAux, if_neg h,
    natDecAux_fuel n (n / 10 + 1) (n / 10) _ (by omega) (by omega),
    natDecAux_append (n / 10 + 1) (n / 10) _ (by omega)]
  rfl

theorem digitChar_toNat (d : Nat) (h : d < 10) :
    (Nat.digitChar d).toNat = 48 + d := by
  interval_cases d <;> rfl

theorem decVal_append_digit (l : List Char) (c : Char) :
    decVal (l ++ [c]) = decVal l * 10 + (c.toNat - 48) := by
  simp [decVal, List.foldl_append]

theorem decVal_natDec (n : Nat) : decVal (natDec n) = n := by
  induction n using Nat.strong_induction_on with
  | _ n ih =>
    by_cases h : n < 10
    · rw [natDec, natDecAux, if_pos h]
      simp [decVal, digitChar_toNat n h]
    · rw [natDec_eq_step n h, decVal_append_digit]
      have hd : n / 10 < n := Nat.div_lt_self (by omega) (by omega)
      rw [ih (n / 10) hd, digitChar_toNat (n % 10) (Nat.mod_lt n (by omega))]
      omega

theorem natDec_injective : Function.Injective natDec := by
  intro a b h
  have := congrArg decVal h
  rwa [decVal_natDec, decVal_natDec] at this

-- ------------------------------------------------------------------
-- Substring test: characterization and stability under strip
-- ------------------------------------------------------------------

theorem pyContains_iff (l sub : List Char) :
    pyContains l sub = true ↔ ∃ u v, l = u ++ sub ++ v := by
  induction l with
  | nil =>
    simp only [pyContains, decide_eq_true_eq]
    constructor
    · intro h
      refine ⟨[], [], ?_⟩
      cases sub with
      | nil => rfl
      | cons s ss => simp at h
    · rintro ⟨u, v, huv⟩
      have : sub = [] := by
        cases u <;> cases sub <;> simp_all
      simp [this]
  | cons c t ih =>
    simp only [pyContains, Bool.or_eq_true, decide_eq_true_eq]
    constructor
    · rintro (h | h)
      · have h2 := List.take_append_drop sub.length (c :: t)
        rw [h] at h2
        exact ⟨[], (c :: t).drop sub.length, by simpa using h2.symm⟩
      · obtain ⟨u, v, huv⟩ := ih.mp h
        exact ⟨c :: u, v, by simp [huv]⟩
    · rintro ⟨u, v, huv⟩
      cases u with
      | nil =>
        left
        simp only [List.nil_append] at huv
        rw [huv]
        simp [List.take_left]
      | cons u0 us =>
        right
        refine ih.mpr ⟨us, v, ?_⟩
        simpa using congrArg List.tail huv

theorem dropWhile_all_false {p : Char → Bool} {l : List Char}
    (h : ∀ c ∈ l, p c = false) : l.dropWhile p = l := by
  cases l with
  | nil => rfl
  | cons c t => simp [List.dropWhile, h c (by simp)]

theorem pyLStrip_no_space {l : List Char} (h : ∀ c ∈ l, isPySpace c = false) :
    pyLStrip l = l := dropWhile_all_false h

theorem pyRStrip_no_space {l : List Char} (h : ∀ c ∈ l, isPySpace c = false) :
    pyRStrip l = l := by
  unfold pyRStrip
  rw [dropWhile_all_false (fun c hc => h c (List.mem_reverse.mp hc))]
  simp

theorem pyLStrip_append (a b : List Char) :
    pyLStrip (a ++ b) =
      if pyLStrip a = [] then pyLStrip b else pyLStrip a ++ b := by
  unfold pyLStrip
  rw [List.dropWhile_append]
  by_cases h : (a.dropWhile isPySpace).isEmpty
  · rw [if_pos h, if_pos (List.isEmpty_iff.mp h)]
  · rw [if_neg h, if_neg (by simpa [List.isEmpty_iff] using h)]

theorem pyRStrip_append (a b : List Char) :
    pyRStrip (a ++ b) =
      if pyRStrip b = [] then pyRStrip a else a ++ pyRStrip b := by
  unfold pyRStrip
  rw [List.reverse_append, List.dropWhile_append]
  by_cases h : (b.reverse.dropWhile isPySpace).isEmpty
  · rw [if_pos h]
    rw [if_pos]
    rw [List.isEmpty_iff.mp h]
    rfl
  · rw [if_neg h]
    rw [if_neg]
    · simp
    · intro hc
      apply h
      rw [List.isEmpty_iff]
      have := congrArg List.reverse hc
      simpa using this

/-- A whitespace-free, non-empty substring survives `str.strip()`. -/
theorem pyContains_pyStrip {l sub : List Char}
    (hc : pyContains l sub = true) (hne : sub ≠ [])
    (hns : ∀ c ∈ sub, isPySpace c = false) :
    pyContains (pyStrip l) sub = true := by
  obtain ⟨u, v, huv⟩ := (pyContains_iff l sub).mp hc
  have hrsub : pyRStrip sub = sub := pyRStrip_no_space hns
  have hlsub : pyLStrip sub = sub := pyLStrip_no_space hns
  -- first, the right strip keeps an occurrence of `sub`
  have hr : ∃ v', pyRStrip l = u ++ sub ++ v' := by
    rw [huv, List.append_assoc, pyRStrip_append u (sub ++ v)]
    have hsv : pyRStrip (sub ++ v) = sub ++ pyRStrip v ∨ pyRStrip (sub ++ v) = sub := by
      rw [pyRStrip_append sub v]
      by_cases h : pyRStrip v = []
      · right; rw [if_pos h, hrsub]
      · left; rw [if_neg h]
    have hsvne : pyRStrip (sub ++ v) ≠ [] := by
      rcases hsv with h | h
      · rw [h]; simp [hne]
      · rw [h]; exact hne
    rw [if_neg hsvne]
    rcases hsv with h | h
    · exact ⟨pyRStrip v, by rw [h, List.append_assoc]⟩
    · exact ⟨[], by rw [h]; simp⟩
  obtain ⟨v', hv'⟩ := hr
  -- then the left strip keeps it as well
  rw [pyStrip, hv', List.append_assoc, pyLStrip_append u (sub ++ v')]
  by_cases h : pyLStrip u = []
  · rw [if_pos h]
    rw [pyLStrip_append sub v', if_neg (by rw [hlsub]; exact hne), hlsub]
    exact (pyContains_iff _ _).mpr ⟨[], v', by simp⟩
  · rw [if_neg h]
    exact (pyContains_iff _ _).mpr ⟨pyLStrip u, v', by simp⟩

-- ------------------------------------------------------------------
-- `CodeBlockDetector._infer_language`
-- ------------------------------------------------------------------

/-- Keyword table of the mermaid branch of `_infer_language` (source lines
79-81, copied verbatim; note the mixed-case `classDiagram` entry). -/
def mermaidInferKeywords : List (List Char) :=
  ["graph", "sequencediagram", "classDiagram", "statediagram", "erdiagram",
   "gantt", "pie", "flowchart", "journey"].map String.data

/-- Keyword table of the plantuml branch of `_infer_language`. -/
def plantumlKeywords : List (List Char) :=
  ["@startuml", "@enduml", "actor", "participant", "class", "interface"].map String.data

/-- Keyword table of the Graphviz/DOT branch of `_infer_language`. -/
def dotKeywords : List (List Char) :=
  ["digraph", "graph", "subgraph", "node", "edge"].map String.data

/-- `CodeBlockDetector._infer_language` (source lines 74-94). -/
def inferLanguage (code : List Char) : List Char :=
  let codeLower := pyStrip (pyLower code)
  if mermaidInferKeywords.any (fun k => pyContains codeLower k) then "mermaid".data
  else if plantumlKeywords.any (fun k => pyContains codeLower k) then "plantuml".data
  else if dotKeywords.any (fun k => pyContains codeLower k) &&
      (pyContains code "->".data || pyContains code "--".data) then "dot".data
  else "unknown".data

-- ------------------------------------------------------------------
-- `SyntaxValidator._fix_mermaid`
-- ------------------------------------------------------------------

/-- `line.count('[') + line.count('(') + line.count('{')`. -/
def bracketOpenCount (line : List Char) : Nat :=
  line.count '[' + line.count '(' + line.count '\x7b'

/-- `line.count(']') + line.count(')') + line.count('}')`. -/
def bracketCloseCount (line : List Char) : Nat :=
  line.count ']' + line.count ')' + line.count '\x7d'

/-- The f-string `f"Line {i+1}: Unbalanced brackets - attempting to fix"`,
already applied to the 1-based line number. -/
def unbalancedIssue (n : Nat) : List Char :=
  "Line ".data ++ natDec n ++ ": Unbalanced brackets - attempting to fix".data

/-- Issue text of the per-line missing-header fix. -/
def headerIssueMsg : List Char :=
  "Missing graph type declaration - adding \x27graph TD\x27".data

/-- Issue text of the final 50-character guard. -/
def guardIssueMsg : List Char :=
  "No valid diagram type found - prepending \x27graph TD\x27".data

/-- Keyword table of the per-line header check (source lines 218-220). -/
def mermaidHeaderKeywords : List (List Char) :=
  ["graph", "flowchart", "sequencediagram", "classDiagram", "statediagram",
   "erdiagram", "gantt", "pie", "journey"].map String.data

/-- Keyword table of the final guard (source lines 243-244). -/
def mermaidGuardKeywords : List (List Char) :=
  ["graph", "flowchart", "sequencediagram", "classDiagram"].map String.data

/-- The alternatives of the split pattern `(-->|---|->|==>|\-\.\->)`, in
the order the regex engine tries them. -/
def arrowOps : List (List Char) :=
  ["-->", "---", "->", "==>", "-.->"].map String.data

/-- First arrow operator (in alternation order) matching at the head of `s`. -/
def matchArrowOp (s : List Char) : Option (List Char) :=
  arrowOps.find? (fun op => decide (s.take op.length = op))

theorem matchArrowOp_pos {s op : List Char} (h : matchArrowOp s = some op) :
    0 < op.length := by
  have hmem := List.mem_of_find?_eq_some h
  fin_cases hmem <;> simp

/-- `re.split` with the capturing arrow-operator group: produces the
alternating text/separator part list.  Fuel-based structural recursion (the
fuel `s.length + 1` of `cleanArrowLine` never runs out, since every step
consumes at least one character). -/
def splitArrowsGo : Nat → List Char → List Char → List (List Char)
  | 0, acc, _ => [acc.reverse]
  | _ + 1, acc, [] => [acc.reverse]
  | fuel + 1, acc, c :: rest =>
    match matchArrowOp (c :: rest) with
    | some op => acc.reverse :: op :: splitArrowsGo fuel [] ((c :: rest).drop op.length)
    | none => splitArrowsGo fuel (c :: acc) rest

/-- Characters the node-id sanitization keeps besides `\w` and `\s`:
brackets, quotes, hyphen, colon. -/
def sanitizeAllowed : List Char := "[]()\x7b\x7d\"\x27-:".data

/-- Per-part cleaner of the node-id sanitization (source lines 229-235). -/
def cleanPart (part : List Char) : List Char :=
  if part ∈ arrowOps then part
  else part.filter (fun c => isWordChar c || isPySpace c || sanitizeAllowed.contains c)

/-- Node-id sanitization of one line (source lines 225-236). -/
def cleanArrowLine (line : List Char) : List Char :=
  ((splitArrowsGo (line.length + 1) [] line).map cleanPart).flatten

/-- The body of the per-line loop of `_fix_mermaid` (source lines 200-238):
returns the lines appended to `fixed_lines` and the issues recorded, in
program order. -/
def fixMermaidLine (i : Nat) (line : List Char) : List (List Char) × List (List Char) :=
  let ob := bracketOpenCount line
  let cb := bracketCloseCount line
  let issues1 : List (List Char) := if ob ≠ cb then [unbalancedIssue (i + 1)] else []
  let line1 := if cb < ob then line ++ List.replicate (ob - cb) ']' else line
  let needHeader :=
    i = 0 ∧ ¬ (mermaidHeaderKeywords.any (fun k => pyContains (pyLower line1) k)) = true
  let issues2 : List (List Char) := if needHeader then [headerIssueMsg] else []
  let pre : List (List Char) := if needHeader then ["graph TD".data] else []
  let line2 :=
    if pyContains line1 "-->".data || pyContains line1 "---".data then cleanArrowLine line1
    else line1
  (pre ++ [line2], issues1 ++ issues2)

/-- Python's `enumerate`, starting at `k`. -/
def enumG {α : Type} (k : Nat) : List α → List (Nat × α)
  | [] => []
  | x :: t => (k, x) :: enumG (k + 1) t

/-- The `fixed_lines` list after the per-line loop of `_fix_mermaid`. -/
def mermaidFixedLines (code : List Char) : List (List Char) :=
  (((enumG 0 (pySplit code)).map (fun p => fixMermaidLine p.1 p.2)).map Prod.fst).flatten

/-- The issue list accumulated by the per-line loop of `_fix_mermaid`. -/
def mermaidLineIssues (code : List Char) : List (List Char) :=
  (((enumG 0 (pySplit code)).map (fun p => fixMermaidLine p.1 p.2)).map Prod.snd).flatten

/-- `SyntaxValidator._fix_mermaid` (source lines 194-248): the per-line
loop, then the final 50-character guard. -/
def fixMermaid (code : List Char) : List Char × List (List Char) :=
  let fixedCode := pyJoin (mermaidFixedLines code)
  if mermaidGuardKeywords.any (fun k => pyContains ((pyLower fixedCode).take 50) k) then
    (fixedCode, mermaidLineIssues code)
  else
    ("graph TD\n".data ++ fixedCode, mermaidLineIssues code ++ [guardIssueMsg])

-- ------------------------------------------------------------------
-- `SyntaxValidator._fix_plantuml` and `_fix_dot`
-- ------------------------------------------------------------------

/-- Issue text for a missing `@startuml` tag. -/
def startTagIssueMsg : List Char := "Missing @startuml tag - adding".data

/-- Issue text for a missing `@enduml` tag. -/
def endTagIssueMsg : List Char := "Missing @enduml tag - adding".data

/-- `SyntaxValidator._fix_plantuml` (source lines 250-263). -/
def fixPlantuml (code : List Char) : List Char × List (List Char) :=
  let p1 := startsWithL (pyStrip code) "@startuml".data
  let c1 := if p1 then code else "@startuml\n".data ++ code
  let i1 : List (List Char) := if p1 then [] else [startTagIssueMsg]
  let p2 := endsWithL (pyStrip c1) "@enduml".data
  let c2 := if p2 then c1 else c1 ++ "\n@enduml".data
  let i2 : List (List Char) := if p2 then [] else [endTagIssueMsg]
  (c2, i1 ++ i2)

/-- The anchored match `re.match(r'^\s*(di)?graph\s+\w*\s*\{', code, re.IGNORECASE)`
of `_fix_dot`, resolved to a deterministic scan (all the character classes
involved are pairwise disjoint, so backtracking cannot change the outcome). -/
def dotDeclOk (code : List Char) : Bool :=
  let s1 := code.dropWhile isPySpace
  let rest :=
    if (s1.take 7).map Char.toLower = "digraph".data then some (s1.drop 7)
    else if (s1.take 5).map Char.toLower = "graph".data then some (s1.drop 5)
    else none
  match rest with
  | none => false
  | some r =>
    let a := (r.takeWhile isPySpace).length
    if a = 0 then false
    else
      let r2 := (r.drop a).dropWhile isWordChar
      let r3 := r2.dropWhile isPySpace
      r3.head? == some '\x7b'

/-- `SyntaxValidator._fix_dot` (source lines 265-279). -/
def fixDot (code : List Char) : List Char × List (List Char) :=
  let d := dotDeclOk code
  let c1 := if d then code else "digraph G \x7b\n".data ++ code
  let i1 : List (List Char) :=
    if d then [] else ["Missing graph declaration - adding \x27digraph G \x7b\x27".data]
  if endsWithL (pyStrip c1) "\x7d".data then (c1, i1)
  else (c1 ++ "\n\x7d".data, i1 ++ ["Missing closing brace - adding".data])

/-- `SyntaxValidator.validate_and_fix` (source lines 174-192). -/
def validateAndFix (code language : List Char) : List Char × List (List Char) :=
  if language = "mermaid".data then fixMermaid code
  else if language = "plantuml".data then fixPlantuml code
  else if language = "dot".data then fixDot code
  else (code, [])

-- ------------------------------------------------------------------
-- Regex machinery for `CodeBlockDetector.detect_blocks`
-- ------------------------------------------------------------------

/-- Index of the first occurrence of `pat` in `l` (the target of a lazy
`(.*?)` followed by the literal `pat`, under `re.DOTALL`). -/
def findPat (pat : List Char) : List Char → Option Nat
  | [] => if ([] : List Char).take pat.length = pat then some 0 else none
  | c :: t =>
    if (c :: t).take pat.length = pat then some 0
    else (findPat pat t).map (· + 1)

/-- Case-insensitive variant of `findPat` (`pat` is stored lowercase). -/
def findPatCI (pat : List Char) : List Char → Option Nat
  | [] => if (([] : List Char).take pat.length).map Char.toLower = pat then some 0 else none
  | c :: t =>
    if (((c :: t).take pat.length).map Char.toLower) = pat then some 0
    else (findPatCI pat t).map (· + 1)

/-- Index of the last `'\n'` in `l`, if any: where a greedy `\s*` followed
by a literal `'\n'` ends up after backtracking, inside a whitespace run. -/
def lastNlIdx : List Char → Option Nat
  | [] => none
  | c :: t =>
    match lastNlIdx t with
    | some j => some (j + 1)
    | none => if c = '\n' then some 0 else none

/-- The sub-pattern `\s*(\w+)?\s*\n` at the start of `u`, resolved to its
deterministic backtracking outcome: returns the optional `(\w+)` group and
the number of characters consumed (including the final newline).
Since `\w` and `\s` are disjoint, the only viable greedy choices are: the
full leading whitespace run, then the full word run if the whitespace run
after it contains a `'\n'` (at the last such position); otherwise the group
is dropped and the match ends at the last `'\n'` of the leading run. -/
def matchWsWordWsNl (u : List Char) : Option (Option (List Char) × Nat) :=
  let a := (u.takeWhile isPySpace).length
  let w := (u.drop a).takeWhile isWordChar
  if w.length = 0 then
    match lastNlIdx (u.takeWhile isPySpace) with
    | some q => some (none, q + 1)
    | none => none
  else
    match lastNlIdx ((u.drop (a + w.length)).takeWhile isPySpace) with
    | some p => some (some w, a + w.length + p + 1)
    | none =>
      match lastNlIdx (u.takeWhile isPySpace) with
      | some q => some (none, q + 1)
      | none => none

/-- One match of a detection pattern, relative to the suffix it was tried
on: the optional language-tag group, the body group, and the length of the
whole match. -/
structure RMatch where
  langTag : Option (List Char)
  body : List Char
  relEnd : Nat
deriving DecidableEq

/-- `re.finditer(r'```(\w+)?\n(.*?)```', ...)` tried at the start of `s`
(and the tilde variant, via the fence parameter).  Since `\w` does not
match `'\n'`, the optional `(\w+)` group can only succeed as the full word
run directly after the fence. -/
def matchFenced (f : Char) (s : List Char) : Option RMatch :=
  if s.take 3 = [f, f, f] then
    let t := s.drop 3
    let w := t.takeWhile isWordChar
    if w.length = 0 then
      if t.head? = some '\n' then
        let v := t.drop 1
        match findPat [f, f, f] v with
        | some j => some ⟨none, v.take j, 3 + 1 + j + 3⟩
        | none => none
      else none
    else
      if (t.drop w.length).head? = some '\n' then
        let v := t.drop (w.length + 1)
        match findPat [f, f, f] v with
        | some j => some ⟨some w, v.take j, 3 + (w.length + 1) + j + 3⟩
        | none => none
      else none
  else none

/-- `re.finditer(r'<code[^>]*>\s*(\w+)?\s*\n(.*?)</code>', ...)` with
`re.IGNORECASE`, tried at the start of `s`.  `[^>]*` followed by `>` is
deterministic: the maximal `'>'`-free run must be followed by `'>'`. -/
def matchCodeTag (s : List Char) : Option RMatch :=
  if (s.take 5).map Char.toLower = "<code".data then
    let t := s.drop 5
    let a := (t.takeWhile (fun c => !(c == '>'))).length
    if a < t.length then
      let u := t.drop (a + 1)
      match matchWsWordWsNl u with
      | some (lg, c1) =>
        let v := u.drop c1
        match findPatCI "</code>".data v with
        | some j => some ⟨lg, v.take j, 5 + (a + 1) + c1 + (j + 7)⟩
        | none => none
      | none => none
    else none
  else none

/-- `re.finditer(r'<pre[^>]*>\s*(\w+)?\s*\n(.*?)</pre>', ...)` with
`re.IGNORECASE`, tried at the start of `s`. -/
def matchPreTag (s : List Char) : Option RMatch :=
  if (s.take 4).map Char.toLower = "<pre".data then
    let t := s.drop 4
    let a := (t.takeWhile (fun c => !(c == '>'))).length
    if a < t.length then
      let u := t.drop (a + 1)
      match matchWsWordWsNl u with
      | some (lg, c1) =>
        let v := u.drop c1
        match findPatCI "</pre>".data v with
        | some j => some ⟨lg, v.take j, 4 + (a + 1) + c1 + (j + 6)⟩
        | none => none
      | none => none
    else none
  else none

/-- The optional group `(?:\s+lang="?(\w+)"?)?` of the BBCode pattern,
tried at the start of `t` (which follows `[code`): returns the `(\w+)`
group and the number of characters consumed including the closing `]`.
`\s+` must be the full whitespace run (`'l'` is not whitespace), the
literal `=` after `lang` is mandatory, and the optional quotes (each
side independently) resolve deterministically against `\w` and `]`. -/
def bbLangGroup (t : List Char) : Option (List Char × Nat) :=
  let a := (t.takeWhile isPySpace).length
  if a = 0 then none
  else if ((t.drop a).take 4).map Char.toLower = "lang".data then
    if (t.drop (a + 4)).head? = some '=' then
      let v := t.drop (a + 5)
      if v.head? = some '"' then
        let w := (v.drop 1).takeWhile isWordChar
        if w.length = 0 then none
        else
          let rest := v.drop (1 + w.length)
          if rest.take 2 = "\"]".data then some (w, a + 5 + 1 + w.length + 2)
          else if rest.take 1 = "]".data then some (w, a + 5 + 1 + w.length + 1)
          else none
      else
        let w := v.takeWhile isWordChar
        if w.length = 0 then none
        else
          let rest := v.drop w.length
          if rest.take 2 = "\"]".data then some (w, a + 5 + w.length + 2)
          else if rest.take 1 = "]".data then some (w, a + 5 + w.length + 1)
          else none
    else none
  else none

/-- `re.finditer(r'\[code(?:\s+lang="?(\w+)"?)?\](.*?)\[/code\]', ...)`
with `re.IGNORECASE`, tried at the start of `s`. -/
def matchBBCode (s : List Char) : Option RMatch :=
  if (s.take 5).map Char.toLower = "[code".data then
    let t := s.drop 5
    match bbLangGroup t with
    | some (w, c) =>
      let v := t.drop c
      match findPatCI "[/code]".data v with
      | some j => some ⟨some w, v.take j, 5 + c + (j + 7)⟩
      | none => none
    | none =>
      if t.head? = some ']' then
        let v := t.drop 1
        match findPatCI "[/code]".data v with
        | some j => some ⟨none, v.take j, 5 + 1 + (j + 7)⟩
        | none => none
      else none
  else none

/-- `re.finditer`: scan left to right, emit the leftmost match, resume at
its end.  Every matcher below consumes at least one character per match, so
the fuel `text.length + 1` never runs out. -/
def scanAux (m : List Char → Option RMatch) : Nat → Nat → List Char → List (Nat × RMatch)
  | 0, _, _ => []
  | fuel + 1, i, s =>
    match m s with
    | some r => (i, r) :: scanAux m fuel (i + r.relEnd) (s.drop r.relEnd)
    | none =>
      match s with
      | [] => []
      | _ :: t => scanAux m fuel (i + 1) t

/-- All matches of one pattern over `text`, with absolute start positions. -/
def scanMatches (m : List Char → Option RMatch) (text : List Char) : List (Nat × RMatch) :=
  scanAux m (text.length + 1) 0 text

-- ------------------------------------------------------------------
-- Candidate blocks (the dicts built by `detect_blocks`)
-- ------------------------------------------------------------------

/-- One candidate block, as the dict built by `detect_blocks`. -/
structure Block where
  startPos : Nat
  endPos : Nat
  language : List Char
  code : List Char
  originalText : List Char
  format : List Char
deriving DecidableEq

/-- The dict built for one regex match (source lines 44-51 and 57-64):
`original_text` is `match.group(0)`, i.e. the matched slice of `text`. -/
def blockOfMatch (text : List Char) (fmt : List Char) (p : Nat × RMatch) : Block :=
  { startPos := p.1
    endPos := p.1 + p.2.relEnd
    language :=
      match p.2.langTag with
      | some w => w
      | none => inferLanguage p.2.body
    code := pyStrip p.2.body
    originalText := (text.drop p.1).take p.2.relEnd
    format := fmt }

/-- Blocks of the two standard fenced patterns, in pooling order. -/
def standardBlocks (text : List Char) : List Block :=
  (scanMatches (matchFenced '`') text).map (blockOfMatch text "standard".data) ++
  (scanMatches (matchFenced '~') text).map (blockOfMatch text "standard".data)

/-- Blocks of the three non-standard patterns, in pooling order. -/
def nonstandardBlocks (text : List Char) : List Block :=
  (scanMatches matchCodeTag text).map (blockOfMatch text "nonstandard".data) ++
  (scanMatches matchBBCode text).map (blockOfMatch text "nonstandard".data) ++
  (scanMatches matchPreTag text).map (blockOfMatch text "nonstandard".data)

-- ------------------------------------------------------------------
-- `CodeBlockDetector._detect_gibberish_blocks`
-- ------------------------------------------------------------------

/-- The character set `'[]{}()->=|:;*+#@'` of `_is_gibberish_line`. -/
def specialsChars : List Char := "[]\x7b\x7d()->=|:;*+#@".data

/-- `CodeBlockDetector._is_gibberish_line` (source lines 135-149).  The
floating-point test `special / total > 0.2` is modelled by the exact
rational equivalent `total < 5 * special`. -/
def isGibberishLine (line : List Char) : Bool :=
  if (pyStrip line).isEmpty then false
  else
    let special := line.countP (fun c => specialsChars.contains c)
    let total := (pyStrip line).length
    if total = 0 then false
    else decide (total < 5 * special)

/-- The dict built for one density-inferred block (source lines 116-127). -/
def mkGibBlock (lines : List (List Char)) (startLine : Nat) (cur : List (List Char)) : Block :=
  let code := pyJoin cur
  let startPos := lineOffset lines startLine
  { startPos := startPos
    endPos := startPos + code.length
    language := inferLanguage code
    code := code
    originalText := code
    format := "gibberish_detected".data }

/-- The loop of `_detect_gibberish_blocks` (source lines 107-131), with the
loop state made explicit: remaining lines, current index `i`, accumulated
run `cur`, `gibberish_count` `cnt`, and `start_line` `sl` (Python resets
`start_line` to the sentinel `-1`, which is never read; the reset value
here is `0`).  Note that a run still open when the lines run out is
discarded, exactly as in the source. -/
def gibGo (lines : List (List Char)) :
    List (List Char) → Nat → List (List Char) → Nat → Nat → List Block
  | [], _, _, _, _ => []
  | l :: rest, i, cur, cnt, sl =>
    if isGibberishLine l then
      gibGo lines rest (i + 1) (cur ++ [l]) (cnt + 1) (if cur.isEmpty then i else sl)
    else
      (if 3 ≤ cur.length ∧ 2 ≤ cnt then [mkGibBlock lines sl cur] else []) ++
        gibGo lines rest (i + 1) [] 0 0

/-- `CodeBlockDetector._detect_gibberish_blocks` (source lines 96-133). -/
def gibberishBlocks (text : List Char) : List Block :=
  let lines := pySplit text
  gibGo lines lines 0 [] 0 0

-- ------------------------------------------------------------------
-- `CodeBlockDetector._deduplicate_blocks` and `detect_blocks`
-- ------------------------------------------------------------------

/-- The sort order `key=lambda x: (x['start_pos'], -x['end_pos'])`. -/
def blockLE (a b : Block) : Prop :=
  a.startPos < b.startPos ∨ (a.startPos = b.startPos ∧ b.endPos ≤ a.endPos)

instance : DecidableRel blockLE := fun a b => by
  unfold blockLE
  exact inferInstance

instance : IsTotal Block blockLE :=
  ⟨fun a b => by unfold blockLE; omega⟩

instance : IsTrans Block blockLE :=
  ⟨fun a b c hab hbc => by unfold blockLE at *; omega⟩

/-- `blocks.sort(...)`: a stable sort by `(start_pos, -end_pos)`. -/
def sortBlocks (blocks : List Block) : List Block :=
  List.insertionSort blockLE blocks

/-- The greedy sweep of `_deduplicate_blocks` (source lines 157-168).  The
kept blocks are accumulated in reverse, head = `result[-1]`. -/
def dedupGo : List Block → List Block → List Block
  | res, [] => res.reverse
  | res, b :: rest =>
    match res with
    | [] => dedupGo [b] rest
    | last :: resTail =>
      if last.endPos ≤ b.startPos then dedupGo (b :: last :: resTail) rest
      else if last.endPos < b.endPos then dedupGo (b :: resTail) rest
      else dedupGo (last :: resTail) rest

/-- `CodeBlockDetector._deduplicate_blocks` (source lines 151-168). -/
def dedupBlocks (blocks : List Block) : List Block :=
  match sortBlocks blocks with
  | [] => []
  | b :: rest => dedupGo [b] rest

/-- The pooled candidate list of `detect_blocks`, in pooling order. -/
def allBlocks (text : List Char) : List Block :=
  standardBlocks text ++ nonstandardBlocks text ++ gibberishBlocks text

/-- `CodeBlockDetector.detect_blocks` (source lines 33-72). -/
def detectBlocks (text : List Char) : List Block :=
  dedupBlocks (allBlocks text)

-- ------------------------------------------------------------------
-- Positional invariants of the matchers and the scanner
-- ------------------------------------------------------------------

theorem take_eq_imp_le {l pat : List Char} {n : Nat} (h : l.take n = pat) :
    pat.length ≤ l.length := by
  have h2 := congrArg List.length h
  rw [List.length_take] at h2
  omega

theorem take_map_eq_imp_le {l pat : List Char} {n : Nat}
    (h : (l.take n).map Char.toLower = pat) : pat.length ≤ l.length := by
  have h2 := congrArg List.length h
  rw [List.length_map, List.length_take] at h2
  omega

theorem head?_some_pos {l : List Char} {c : Char}
    (h : l.head? = some c) : 0 < l.length := by
  cases l with
  | nil => simp at h
  | cons x t => simp

theorem findPat_le {pat l : List Char} {j : Nat} (h : findPat pat l = some j) :
    j + pat.length ≤ l.length := by
  induction l generalizing j with
  | nil =>
    simp only [findPat] at h
    split at h
    · rename_i hc
      have hl := take_eq_imp_le hc
      simp only [List.length_nil] at hl ⊢
      simp at h
      omega
    · simp at h
  | cons c t ih =>
    simp only [findPat] at h
    split at h
    · rename_i hc
      have := take_eq_imp_le hc
      simp at h
      omega
    · cases hf : findPat pat t with
      | none => rw [hf] at h; simp at h
      | some j' =>
        rw [hf] at h
        simp at h
        have := ih hf
        simp [← h]
        omega

theorem findPat_at {pat l : List Char} {j : Nat} (h : findPat pat l = some j) :
    (l.drop j).take pat.length = pat := by
  induction l generalizing j with
  | nil =>
    simp only [findPat] at h
    split at h
    · rename_i hc
      simp at h
      subst h
      simpa using hc
    · simp at h
  | cons c t ih =>
    simp only [findPat] at h
    split at h
    · rename_i hc
      simp at h
      subst h
      simpa using hc
    · cases hf : findPat pat t with
      | none => rw [hf] at h; simp at h
      | some j' =>
        rw [hf] at h
        simp at h
        subst h
        simpa using ih hf

theorem findPat_min {pat l : List Char} {j : Nat} (h : findPat pat l = some j) :
    ∀ k < j, (l.drop k).take pat.length ≠ pat := by
  induction l generalizing j with
  | nil =>
    simp only [findPat] at h
    split at h
    · simp at h
      omega
    · simp at h
  | cons c t ih =>
    simp only [findPat] at h
    split at h
    · simp at h
      omega
    · rename_i hc
      cases hf : findPat pat t with
      | none => rw [hf] at h; simp at h
      | some j' =>
        rw [hf] at h
        simp at h
        subst h
        intro k hk
        cases k with
        | zero => simpa using hc
        | succ k' =>
          have := ih hf k' (by omega)
          simpa using this

theorem findPatCI_le {pat l : List Char} {j : Nat} (h : findPatCI pat l = some j) :
    j + pat.length ≤ l.length := by
  induction l generalizing j with
  | nil =>
    simp only [findPatCI] at h
    split at h
    · rename_i hc
      have hl := take_map_eq_imp_le hc
      simp only [List.length_nil] at hl ⊢
      simp at h
      omega
    · simp at h
  | cons c t ih =>
    simp only [findPatCI] at h
    split at h
    · rename_i hc
      have := take_map_eq_imp_le hc
      simp at h
      omega
    · cases hf : findPatCI pat t with
      | none => rw [hf] at h; simp at h
      | some j' =>
        rw [hf] at h
        simp at h
        have := ih hf
        simp [← h]
        omega

theorem lastNlIdx_lt {l : List Char} {j : Nat} (h : lastNlIdx l = some j) :
    j < l.length := by
  induction l generalizing j with
  | nil => simp [lastNlIdx] at h
  | cons c t ih =>
    simp only [lastNlIdx] at h
    cases hf : lastNlIdx t with
    | some j' =>
      rw [hf] at h
      simp at h
      have h3 := ih hf
      simp [← h]
      omega
    | none =>
      rw [hf] at h
      simp at h
      obtain ⟨-, h2⟩ := h
      subst h2
      simp

theorem matchWsWordWsNl_le {u : List Char} {lg : Option (List Char)} {c : Nat}
    (h : matchWsWordWsNl u = some (lg, c)) : 0 < c ∧ c ≤ u.length := by
  have ha : (u.takeWhile isPySpace).length ≤ u.length := takeWhile_length_le _ u
  have hw : ((u.drop (u.takeWhile isPySpace).length).takeWhile isWordChar).length ≤
      u.length - (u.takeWhile isPySpace).length := by
    have := takeWhile_length_le isWordChar (u.drop (u.takeWhile isPySpace).length)
    simpa using this
  simp only [matchWsWordWsNl] at h
  split at h
  · cases hq : lastNlIdx (u.takeWhile isPySpace) with
    | none => rw [hq] at h; simp at h
    | some q =>
      rw [hq] at h
      have := lastNlIdx_lt hq
      simp at h
      omega
  · cases hp : lastNlIdx ((u.drop ((u.takeWhile isPySpace).length +
        ((u.drop (u.takeWhile isPySpace).length).takeWhile isWordChar).length)).takeWhile
          isPySpace) with
    | some p =>
      rw [hp] at h
      have hlt := lastNlIdx_lt hp
      have hr := takeWhile_length_le isPySpace
        (u.drop ((u.takeWhile isPySpace).length +
          ((u.drop (u.takeWhile isPySpace).length).takeWhile isWordChar).length))
      simp only [List.length_drop] at hr
      simp at h
      omega
    | none =>
      rw [hp] at h
      cases hq : lastNlIdx (u.takeWhile isPySpace) with
      | none => rw [hq] at h; simp at h
      | some q =>
        rw [hq] at h
        have := lastNlIdx_lt hq
        simp at h
        omega

theorem matchFenced_le {f : Char} {s : List Char} {r : RMatch}
    (h : matchFenced f s = some r) : 0 < r.relEnd ∧ r.relEnd ≤ s.length := by
  simp only [matchFenced] at h
  split at h
  · rename_i h3
    have hs3 : 3 ≤ s.length := by
      have := congrArg List.length h3
      rw [List.length_take] at this
      simp at this
      omega
    have hwle : ((s.drop 3).takeWhile isWordChar).length ≤ s.length - 3 := by
      have := takeWhile_length_le isWordChar (s.drop 3)
      simpa using this
    split at h
    · split at h
      · rename_i hnl
        have hlt := head?_some_pos hnl
        simp only [List.length_drop] at hlt
        cases hj : findPat [f, f, f] ((s.drop 3).drop 1) with
        | none => rw [hj] at h; simp at h
        | some j =>
          rw [hj] at h
          have hle := findPat_le hj
          simp at hle h
          cases h
          simp
          omega
      · simp at h
    · split at h
      · rename_i hnl
        have hlt := head?_some_pos hnl
        simp only [List.length_drop] at hlt
        cases hj : findPat [f, f, f]
            ((s.drop 3).drop (((s.drop 3).takeWhile isWordChar).length + 1)) with
        | none => rw [hj] at h; simp at h
        | some j =>
          rw [hj] at h
          have hle := findPat_le hj
          simp at hle h
          cases h
          simp
          omega
      · simp at h
  · simp at h

theorem matchCodeTag_le {s : List Char} {r : RMatch}
    (h : matchCodeTag s = some r) : 0 < r.relEnd ∧ r.relEnd ≤ s.length := by
  simp only [matchCodeTag] at h
  split at h
  · rename_i h5
    have hs5 : 5 ≤ s.length := by
      have := congrArg List.length h5
      rw [List.length_map, List.length_take] at this
      simp at this
      omega
    split at h
    · rename_i ha
      split at h
      · rename_i lg c1 hm
        have hc1 := matchWsWordWsNl_le hm
        split at h
        · rename_i j hj
          have hle := findPatCI_le hj
          simp only [List.length_drop] at hc1 hle
          simp at h hle
          cases h
          simp at ha
          simp
          omega
        · simp at h
      · simp at h
    · simp at h
  · simp at h

theorem matchPreTag_le {s : List Char} {r : RMatch}
    (h : matchPreTag s = some r) : 0 < r.relEnd ∧ r.relEnd ≤ s.length := by
  simp only [matchPreTag] at h
  split at h
  · rename_i h4
    have hs4 : 4 ≤ s.length := by
      have := congrArg List.length h4
      rw [List.length_map, List.length_take] at this
      simp at this
      omega
    split at h
    · rename_i ha
      split at h
      · rename_i lg c1 hm
        have hc1 := matchWsWordWsNl_le hm
        split at h
        · rename_i j hj
          have hle := findPatCI_le hj
          simp only [List.length_drop] at hc1 hle
          simp at h hle
          cases h
          simp at ha
          simp
          omega
        · simp at h
      · simp at h
    · simp at h
  · simp at h

theorem bbLangGroup_le {t : List Char} {w : List Char} {c : Nat}
    (h : bbLangGroup t = some (w, c)) : 0 < c ∧ c ≤ t.length := by
  simp only [bbLangGroup] at h
  have ha : (t.takeWhile isPySpace).length ≤ t.length := takeWhile_length_le _ t
  set a := (t.takeWhile isPySpace).length with ha_def
  split at h
  · simp at h
  · split at h
    · rename_i hlang
      have h4 : 4 ≤ (t.drop a).length := by
        have h5 := congrArg List.length hlang
        rw [List.length_map, List.length_take] at h5
        simp only [List.length_drop] at h5 ⊢
        simp at h5
        omega
      simp only [List.length_drop] at h4
      split at h
      · rename_i heq
        have h5 : 0 < (t.drop (a + 4)).length := head?_some_pos heq
        simp only [List.length_drop] at h5
        split at h
        · rename_i hq
          have h1 : 1 ≤ (t.drop (a + 5)).length := head?_some_pos hq
          split at h
          · simp at h
          · rename_i hw0
            have hwle : (((t.drop (a + 5)).drop 1).takeWhile isWordChar).length ≤
                (t.drop (a + 5)).length - 1 := by
              have := takeWhile_length_le isWordChar ((t.drop (a + 5)).drop 1)
              simpa using this
            split at h
            · rename_i h2
              have := take_eq_imp_le h2
              simp only [List.length_drop] at this hwle h1 ⊢
              simp at h this
              cases h
              omega
            · split at h
              · rename_i h2
                have := take_eq_imp_le h2
                simp only [List.length_drop] at this hwle h1 ⊢
                simp at h this
                cases h
                omega
              · simp at h
        · split at h
          · simp at h
          · rename_i hw0
            have hwle : ((t.drop (a + 5)).takeWhile isWordChar).length ≤
                (t.drop (a + 5)).length := takeWhile_length_le _ _
            split at h
            · rename_i h2
              have := take_eq_imp_le h2
              simp only [List.length_drop] at this hwle ⊢
              simp at h this
              cases h
              omega
            · split at h
              · rename_i h2
                have := take_eq_imp_le h2
                simp only [List.length_drop] at this hwle ⊢
                simp at h this
                cases h
                omega
              · simp at h
      · simp at h
    · simp at h

theorem matchBBCode_le {s : List Char} {r : RMatch}
    (h : matchBBCode s = some r) : 0 < r.relEnd ∧ r.relEnd ≤ s.length := by
  simp only [matchBBCode] at h
  split at h
  · rename_i h5
    have hs5 : 5 ≤ s.length := by
      have := congrArg List.length h5
      rw [List.length_map, List.length_take] at this
      simp at this
      omega
    split at h
    · rename_i w c hg
      have hc := bbLangGroup_le hg
      simp only [List.length_drop] at hc
      split at h
      · rename_i j hj
        have hle := findPatCI_le hj
        simp only [List.length_drop] at hle
        simp at h hle
        cases h
        simp
        omega
      · simp at h
    · rename_i hg
      split at h
      · rename_i hbr
        have hlt := head?_some_pos hbr
        simp only [List.length_drop] at hlt
        split at h
        · rename_i j hj
          have hle := findPatCI_le hj
          simp only [List.length_drop] at hle
          simp at h hle
          cases h
          simp
          omega
        · simp at h
      · simp at h
  · simp at h

/-- Every match emitted by the scanner starts at or after the scan origin,
is non-empty, and ends within the scanned suffix. -/
theorem scanAux_bound {m : List Char → Option RMatch}
    (hm : ∀ s r, m s = some r → 0 < r.relEnd ∧ r.relEnd ≤ s.length) :
    ∀ (fuel i : Nat) (s : List Char), ∀ p ∈ scanAux m fuel i s,
      i ≤ p.1 ∧ 0 < p.2.relEnd ∧ p.1 + p.2.relEnd ≤ i + s.length := by
  intro fuel
  induction fuel with
  | zero => intro i s p hp; simp [scanAux] at hp
  | succ fuel ih =>
    intro i s p hp
    simp only [scanAux] at hp
    cases hr : m s with
    | some r =>
      rw [hr] at hp
      have hb := hm s r hr
      rcases List.mem_cons.mp hp with heq | htail
      · subst heq
        simp
        omega
      · have := ih (i + r.relEnd) (s.drop r.relEnd) p htail
        simp only [List.length_drop] at this
        omega
    | none =>
      rw [hr] at hp
      cases s with
      | nil => simp at hp
      | cons c t =>
        have := ih (i + 1) t p hp
        simp at this ⊢
        omega

/-- The three per-block invariants of claim C2, for one block. -/
def BlockInv (text : List Char) (b : Block) : Prop :=
  b.startPos < b.endPos ∧ b.endPos ≤ text.length ∧
    (text.drop b.startPos).take (b.endPos - b.startPos) = b.originalText

theorem scanBlocks_inv {m : List Char → Option RMatch}
    (hm : ∀ s r, m s = some r → 0 < r.relEnd ∧ r.relEnd ≤ s.length)
    (text fmt : List Char) :
    ∀ b ∈ (scanMatches m text).map (blockOfMatch text fmt), BlockInv text b := by
  intro b hb
  obtain ⟨p, hp, rfl⟩ := List.mem_map.mp hb
  have hbound := scanAux_bound hm (text.length + 1) 0 text p hp
  refine ⟨by simp [blockOfMatch]; omega, by simp [blockOfMatch]; omega, ?_⟩
  simp [blockOfMatch]

/-- State invariant of the gibberish scan: every emitted block satisfies
the C2 invariants with respect to the joined line list. -/
theorem gibGo_inv (lines : List (List Char)) (L : List (List Char)) :
    ∀ (i : Nat) (cur : List (List Char)) (cnt sl : Nat),
      lines.drop i = L →
      (cur ≠ [] → sl + cur.length = i ∧ lines.drop sl = cur ++ L ∧
        ∀ x ∈ cur, isGibberishLine x = true) →
      ∀ b ∈ gibGo lines L i cur cnt sl, BlockInv (pyJoin lines) b := by
  induction L with
  | nil => intro i cur cnt sl _ _ b hb; simp [gibGo] at hb
  | cons l rest ih =>
    intro i cur cnt sl hL hcur b hb
    have hdrop1 : lines.drop (i + 1) = rest := by
      have : (lines.drop i).drop 1 = lines.drop (i + 1) := by
        rw [List.drop_drop]
      rw [← this, hL]
      rfl
    simp only [gibGo] at hb
    by_cases hg : isGibberishLine l = true
    · rw [if_pos hg] at hb
      refine ih (i + 1) (cur ++ [l]) (cnt + 1) _ hdrop1 ?_ b hb
      intro _
      by_cases hce : cur.isEmpty
      · have hce' : cur = [] := List.isEmpty_iff.mp hce
        subst hce'
        refine ⟨by simp, by simpa using hL, ?_⟩
        intro x hx
        simp at hx
        rw [hx]
        exact hg
      · have hne : cur ≠ [] := fun hc => hce (by simp [hc])
        rw [if_neg (by simpa [List.isEmpty_iff] using hne)]
        obtain ⟨h1, h2, h3⟩ := hcur hne
        refine ⟨by simp; omega, ?_, ?_⟩
        · rw [h2]
          simp
        · intro x hx
          rcases List.mem_append.mp hx with hx | hx
          · exact h3 x hx
          · simp at hx
            rw [hx]
            exact hg
    · rw [if_neg hg] at hb
      rcases List.mem_append.mp hb with hemit | hrec
      · split at hemit
        · rename_i hcond
          simp at hemit
          subst hemit
          have hcne : cur ≠ [] := by
            intro hc
            rw [hc] at hcond
            simp at hcond
          obtain ⟨h1, h2, h3⟩ := hcur hcne
          -- the emitted block is a well-formed slice of the joined text
          have hsl : sl < lines.length := by
            by_contra hsl
            rw [List.drop_eq_nil_of_le (by omega)] at h2
            cases cur with
            | nil => exact hcne rfl
            | cons c0 cs => simp at h2
          have hJ := pyJoin_drop_lineOffset lines sl hsl
          rw [h2, pyJoin_append cur (l :: rest) hcne (by simp)] at hJ
          have hlenJ := congrArg List.length hJ
          simp only [List.length_drop, List.length_append, List.length_cons] at hlenJ
          have hcode_pos : 0 < (pyJoin cur).length := by
            cases cur with
            | nil => exact absurd rfl hcne
            | cons c0 cs =>
              have hc0 : isGibberishLine c0 = true := h3 c0 (by simp)
              have hc0ne : c0 ≠ [] := by
                intro hc
                rw [hc] at hc0
                simp [isGibberishLine, pyStrip, pyRStrip, pyLStrip] at hc0
              have := pyJoin_length_ge_head c0 cs
              have : 0 < c0.length := List.length_pos.mpr hc0ne
              have := pyJoin_length_ge_head c0 cs
              omega
          refine ⟨by simp [mkGibBlock]; omega, by simp [mkGibBlock]; omega, ?_⟩
          simp only [mkGibBlock]
          rw [Nat.add_sub_cancel_left, hJ, List.take_left]
        · simp at hemit
      · exact ih (i + 1) [] 0 0 hdrop1 (by intro hc; exact absurd rfl hc) b hrec

/-- Every density-inferred block satisfies the C2 invariants. -/
theorem gibberishBlocks_inv (text : List Char) :
    ∀ b ∈ gibberishBlocks text, BlockInv text b := by
  intro b hb
  have h := gibGo_inv (pySplit text) (pySplit text) 0 [] 0 0 (by simp)
    (fun hc => absurd rfl hc) b hb
  rwa [pyJoin_pySplit] at h

/-- Every pooled candidate block satisfies the C2 invariants. -/
theorem allBlocks_inv (text : List Char) :
    ∀ b ∈ allBlocks text, BlockInv text b := by
  intro b hb
  unfold allBlocks standardBlocks nonstandardBlocks at hb
  simp only [List.append_assoc, List.mem_append] at hb
  rcases hb with h | h | h | h | h | h
  · exact scanBlocks_inv (fun s r => matchFenced_le) text _ b h
  · exact scanBlocks_inv (fun s r => matchFenced_le) text _ b h
  · exact scanBlocks_inv (fun s r => matchCodeTag_le) text _ b h
  · exact scanBlocks_inv (fun s r => matchBBCode_le) text _ b h
  · exact scanBlocks_inv (fun s r => matchPreTag_le) text _ b h
  · exact gibberishBlocks_inv text b h

-- ------------------------------------------------------------------
-- Deduplication: subset, ordering and non-overlap
-- ------------------------------------------------------------------

theorem dedupGo_subset (rem : List Block) :
    ∀ res, ∀ b ∈ dedupGo res rem, b ∈ res ∨ b ∈ rem := by
  induction rem with
  | nil =>
    intro res b hb
    simp only [dedupGo] at hb
    exact Or.inl (List.mem_reverse.mp hb)
  | cons x rem' ih =>
    intro res b hb
    cases res with
    | nil =>
      simp only [dedupGo] at hb
      rcases ih [x] b hb with h | h
      · simp at h
        simp [h]
      · simp [h]
    | cons last resTail =>
      simp only [dedupGo] at hb
      split at hb
      · rcases ih (x :: last :: resTail) b hb with h | h
        · simp at h
          rcases h with h | h | h
          · simp [h]
          · simp [h]
          · simp [h]
        · simp [h]
      · split at hb
        · rcases ih (x :: resTail) b hb with h | h
          · simp at h
            rcases h with h | h
            · simp [h]
            · simp [h]
          · simp [h]
        · rcases ih (last :: resTail) b hb with h | h
          · simp at h
            rcases h with h | h
            · simp [h]
            · simp [h]
          · simp [h]

theorem sortBlocks_mem {blocks : List Block} {b : Block} :
    b ∈ sortBlocks blocks ↔ b ∈ blocks :=
  (List.perm_insertionSort blockLE blocks).mem_iff

theorem dedupBlocks_subset {blocks : List Block} :
    ∀ b ∈ dedupBlocks blocks, b ∈ blocks := by
  intro b hb
  unfold dedupBlocks at hb
  cases hs : sortBlocks blocks with
  | nil => rw [hs] at hb; simp at hb
  | cons x rest =>
    rw [hs] at hb
    rcases dedupGo_subset rest [x] b hb with h | h
    · simp at h
      subst h
      exact sortBlocks_mem.mp (by rw [hs]; simp)
    · exact sortBlocks_mem.mp (by rw [hs]; simp [h])

theorem blockLE_start {a b : Block} (h : blockLE a b) : a.startPos ≤ b.startPos := by
  unfold blockLE at h
  omega

/-- The greedy sweep keeps the reversed accumulator chained: every kept
block ends at or before the start of the one kept after it. -/
theorem dedupGo_chain (rem : List Block) :
    ∀ (last : Block) (resTail : List Block),
      List.Chain' (fun x y : Block => y.endPos ≤ x.startPos) (last :: resTail) →
      (∀ x ∈ last :: resTail, x.startPos < x.endPos) →
      (∀ y ∈ rem, y.startPos < y.endPos) →
      (∀ y ∈ rem, blockLE last y) →
      List.Pairwise blockLE rem →
      List.Chain' (fun x y : Block => x.endPos ≤ y.startPos)
          (dedupGo (last :: resTail) rem) ∧
        ∀ b ∈ dedupGo (last :: resTail) rem, b.startPos < b.endPos := by
  induction rem with
  | nil =>
    intro last resTail hchain hlt _ _ _
    simp only [dedupGo]
    constructor
    · exact List.chain'_reverse.mpr hchain
    · intro b hb
      exact hlt b (List.mem_reverse.mp hb)
  | cons b rem' ih =>
    intro last resTail hchain hlt hremlt hord hpair
    have hordb : blockLE last b := hord b (by simp)
    have hord' : ∀ y ∈ rem', blockLE b y := (List.pairwise_cons.mp hpair).1
    have hpair' : List.Pairwise blockLE rem' := (List.pairwise_cons.mp hpair).2
    have hremlt' : ∀ y ∈ rem', y.startPos < y.endPos := fun y hy => hremlt y (by simp [hy])
    have hblt : b.startPos < b.endPos := hremlt b (by simp)
    simp only [dedupGo]
    split
    · rename_i hle
      refine ih b (last :: resTail) ?_ ?_ hremlt' hord' hpair'
      · exact List.chain'_cons.mpr ⟨hle, hchain⟩
      · intro x hx
        rcases List.mem_cons.mp hx with h | h
        · subst h; exact hblt
        · exact hlt x h
    · split
      · rename_i hgt hbig
        refine ih b resTail ?_ ?_ hremlt' hord' hpair'
        · cases resTail with
          | nil => simp
          | cons z zs =>
            have hz : z.endPos ≤ last.startPos := (List.chain'_cons.mp hchain).1
            refine List.chain'_cons.mpr ⟨?_, (List.chain'_cons.mp hchain).2⟩
            have := blockLE_start hordb
            omega
        · intro x hx
          rcases List.mem_cons.mp hx with h | h
          · subst h; exact hblt
          · exact hlt x (by simp [h])
      · rename_i hgt hsmall
        refine ih last resTail hchain hlt hremlt' ?_ hpair'
        intro y hy
        exact IsTrans.trans (r := blockLE) last b y hordb (hord' y hy)

theorem chain_head_le {a : Block} {t : List Block}
    (hchain : List.Chain' (fun x y : Block => x.endPos ≤ y.startPos) (a :: t))
    (hlt : ∀ x ∈ a :: t, x.startPos < x.endPos) :
    ∀ y ∈ t, a.endPos ≤ y.startPos := by
  induction t generalizing a with
  | nil => intro y hy; simp at hy
  | cons c t' ih =>
    intro y hy
    have hac : a.endPos ≤ c.startPos := (List.chain'_cons.mp hchain).1
    rcases List.mem_cons.mp hy with h | h
    · subst h; exact hac
    · have hclt : c.startPos < c.endPos := hlt c (by simp)
      have := ih (List.chain'_cons.mp hchain).2 (fun x hx => hlt x (by
        rcases List.mem_cons.mp hx with h2 | h2
        · simp [h2]
        · simp [h2])) y h
      omega

theorem chain_lt_pairwise :
    ∀ l : List Block,
      List.Chain' (fun x y : Block => x.endPos ≤ y.startPos) l →
      (∀ x ∈ l, x.startPos < x.endPos) →
      List.Pairwise (fun a b : Block => a.endPos ≤ b.startPos ∧ a.startPos < b.startPos) l := by
  intro l
  induction l with
  | nil => intro _ _; simp
  | cons a t ih =>
    intro hchain hlt
    refine List.pairwise_cons.mpr ⟨?_, ?_⟩
    · intro y hy
      have h1 := chain_head_le hchain hlt y hy
      have h2 := hlt a (by simp)
      exact ⟨h1, by omega⟩
    · refine ih (List.Chain'.tail hchain) (fun x hx => hlt x (by simp [hx]))

-- ------------------------------------------------------------------
-- Claims C1 and C2
-- ------------------------------------------------------------------

/-- C1: for every input text, the sequence returned by `detect_blocks` is
pairwise non-overlapping (each block ends at or before the next one
starts) and sorted strictly ascending by `start_pos`; this covers the
greedy sweep of `_deduplicate_blocks`, including its replacement of the
last kept block by a larger overlapping one. -/
theorem detect_blocks_sorted_nonoverlap (text : List Char) :
    List.Pairwise (fun a b : Block => a.endPos ≤ b.startPos ∧ a.startPos < b.startPos)
      (detectBlocks text) := by
  unfold detectBlocks dedupBlocks
  cases hs : sortBlocks (allBlocks text) with
  | nil => simp
  | cons x rest =>
    have hsorted : List.Pairwise blockLE (x :: rest) := by
      have h := List.sorted_insertionSort blockLE (allBlocks text)
      unfold sortBlocks at hs
      rw [hs] at h
      exact h
    have hmem : ∀ y ∈ x :: rest, y.startPos < y.endPos := by
      intro y hy
      have hyall : y ∈ allBlocks text := sortBlocks_mem.mp (by rw [hs]; exact hy)
      exact (allBlocks_inv text y hyall).1
    have hchain := dedupGo_chain rest x []
      (by simp)
      (fun z hz => by
        simp only [List.mem_singleton] at hz
        exact hmem z (by rw [hz]; simp))
      (fun y hy => hmem y (by simp [hy]))
      (List.pairwise_cons.mp hsorted).1
      (List.pairwise_cons.mp hsorted).2
    exact chain_lt_pairwise _ hchain.1 hchain.2

/-- C2: for every input text, every block returned by `detect_blocks`
satisfies `start_pos < end_pos`, `end_pos <= len(text)`, and
`text[start_pos:end_pos] == original_text`, density-inferred blocks
included. -/
theorem detect_blocks_spans (text : List Char) :
    ∀ b ∈ detectBlocks text,
      b.startPos < b.endPos ∧ b.endPos ≤ text.length ∧
        (text.drop b.startPos).take (b.endPos - b.startPos) = b.originalText := by
  intro b hb
  exact allBlocks_inv text b (dedupBlocks_subset b hb)

/-- Concrete input for the C2 witness. -/
def c2WitnessText : List Char := "```\nx\n```".data

/-- The single block `detect_blocks` finds in `c2WitnessText`. -/
def c2WitnessBlock : Block :=
  ⟨0, 9, "unknown".data, "x".data, "```\nx\n```".data, "standard".data⟩

/-- Witness for C2 at a concrete fenced input. -/
theorem detect_blocks_spans_witness :
    c2WitnessBlock.startPos < c2WitnessBlock.endPos ∧
      c2WitnessBlock.endPos ≤ c2WitnessText.length ∧
      (c2WitnessText.drop c2WitnessBlock.startPos).take
          (c2WitnessBlock.endPos - c2WitnessBlock.startPos) =
        c2WitnessBlock.originalText :=
  detect_blocks_spans c2WitnessText c2WitnessBlock (by decide)

-- ------------------------------------------------------------------
-- Claim C3
-- ------------------------------------------------------------------

/-- C3 counterexample: on `"```\nab ``` cd\n```"` the fenced match ends at
the first occurrence of the fence token — the ``` appearing mid-line inside
the body at offset 7 — producing the block `[0, 10)` with matched text
`"```\nab ```"`, even though a line-respecting closing fence exists at
offset 14.  This refutes the claim that matching does not end at the first
occurrence of the fence token alone. -/
theorem fenced_midline_counterexample :
    detectBlocks "```\nab ``` cd\n```".data =
      [⟨0, 10, "unknown".data, "ab".data, "```\nab ```".data, "standard".data⟩] ∧
      ("```\nab ``` cd\n```".data.drop 14).take 3 = "```".data := by
  constructor
  · decide
  · decide

/-- C3 amended: the fenced-block strategy matches a triple-backtick (or
triple-tilde) opening fence with optional language tag; the body may
contain newlines, and the match ends at the first occurrence of the fence
token after the body start, wherever on a line it occurs (not at a
line-respecting closing counterpart).  The first conjunct states this for
every successful match: the body is a slice followed immediately by the
fence token, and no earlier body position carries the fence token.  The
second conjunct exhibits the optional language tag and a multi-line body
on a concrete input. -/
theorem fenced_match_first_occurrence :
    (∀ (f : Char) (s : List Char) (r : RMatch), matchFenced f s = some r →
      ∃ bs j, r.body = (s.drop bs).take j ∧ r.relEnd = bs + j + 3 ∧
        (s.drop (bs + j)).take 3 = [f, f, f] ∧
        ∀ k < j, (s.drop (bs + k)).take 3 ≠ [f, f, f]) ∧
    (scanMatches (matchFenced '`') "```mermaid\ngraph TD\nA-->B\n```".data).map
        (fun p => (p.1, p.2.langTag, p.2.body)) =
      [(0, some "mermaid".data, "graph TD\nA-->B\n".data)] := by
  constructor
  · intro f s r h
    simp only [matchFenced] at h
    split at h
    · rename_i h3
      split at h
      · split at h
        · rename_i hw0 hnl
          split at h
          · rename_i j hj
            injection h with h'
            subst h'
            refine ⟨3 + 1, j, ?_, rfl, ?_, ?_⟩
            · rw [List.drop_drop]
            · have h0 := findPat_at hj
              rw [List.drop_drop, List.drop_drop] at h0
              rw [show 3 + 1 + j = 3 + (1 + j) from by omega]
              simpa using h0
            · intro k hk
              have h0 := findPat_min hj k hk
              rw [List.drop_drop, List.drop_drop] at h0
              rw [show 3 + 1 + k = 3 + (1 + k) from by omega]
              simpa using h0
          · simp at h
        · simp at h
      · split at h
        · rename_i hw0 hnl
          split at h
          · rename_i j hj
            injection h with h'
            subst h'
            refine ⟨3 + (((s.drop 3).takeWhile isWordChar).length + 1), j, ?_, rfl,
              ?_, ?_⟩
            · rw [List.drop_drop]
            · have h0 := findPat_at hj
              rw [List.drop_drop, List.drop_drop] at h0
              rw [show 3 + (((s.drop 3).takeWhile isWordChar).length + 1) + j =
                  3 + ((((s.drop 3).takeWhile isWordChar).length + 1) + j) from by omega]
              simpa using h0
            · intro k hk
              have h0 := findPat_min hj k hk
              rw [List.drop_drop, List.drop_drop] at h0
              rw [show 3 + (((s.drop 3).takeWhile isWordChar).length + 1) + k =
                  3 + ((((s.drop 3).takeWhile isWordChar).length + 1) + k) from by omega]
              simpa using h0
          · simp at h
        · simp at h
    · simp at h
  · decide

/-- Witness for the universally quantified part of the C3 amended theorem,
at the concrete match of `"```\nx\n```"`. -/
theorem fenced_match_first_occurrence_witness :
    ∃ bs j, (RMatch.mk none "x\n".data 9).body = ("```\nx\n```".data.drop bs).take j ∧
      (RMatch.mk none "x\n".data 9).relEnd = bs + j + 3 ∧
      ("```\nx\n```".data.drop (bs + j)).take 3 = ['`', '`', '`'] ∧
      ∀ k < j, ("```\nx\n```".data.drop (bs + k)).take 3 ≠ ['`', '`', '`'] :=
  fenced_match_first_occurrence.1 '`' "```\nx\n```".data
    (RMatch.mk none "x\n".data 9) (by decide)

-- ------------------------------------------------------------------
-- Claim C4
-- ------------------------------------------------------------------

/-- Scanning a run of flagged lines only accumulates state. -/
theorem gibGo_run (lines : List (List Char)) :
    ∀ (v rest : List (List Char)) (i : Nat) (cur : List (List Char)) (cnt sl : Nat),
      (∀ x ∈ v, isGibberishLine x = true) →
      gibGo lines (v ++ rest) i cur cnt sl =
        gibGo lines rest (i + v.length) (cur ++ v) (cnt + v.length)
          (if cur.isEmpty then (if v.isEmpty then sl else i) else sl) := by
  intro v
  induction v with
  | nil =>
    intro rest i cur cnt sl _
    simp
  | cons x v' ih =>
    intro rest i cur cnt sl hv
    have hx : isGibberishLine x = true := hv x (by simp)
    have hv' : ∀ y ∈ v', isGibberishLine y = true := fun y hy => hv y (by simp [hy])
    rw [List.cons_append]
    have hstep : gibGo lines (x :: (v' ++ rest)) i cur cnt sl =
        gibGo lines (v' ++ rest) (i + 1) (cur ++ [x]) (cnt + 1)
          (if cur.isEmpty then i else sl) := by
      simp only [gibGo, hx, if_true]
    rw [hstep, ih rest (i + 1) (cur ++ [x]) (cnt + 1) _ hv']
    have h1 : i + 1 + v'.length = i + (x :: v').length := by simp; omega
    have h2 : cur ++ [x] ++ v' = cur ++ x :: v' := by simp
    have h3 : cnt + 1 + v'.length = cnt + (x :: v').length := by simp; omega
    have h4 : (if (cur ++ [x]).isEmpty then
          (if v'.isEmpty then (if cur.isEmpty then i else sl) else i + 1)
        else (if cur.isEmpty then i else sl)) =
        (if cur.isEmpty then (if (x :: v').isEmpty then sl else i) else sl) := by
      cases cur <;> simp
    rw [h1, h2, h3, h4]

/-- After any prefix ending in a non-flagged line, the scan state is the
clean state, and the output decomposes accordingly. -/
theorem gibGo_reach (lines : List (List Char)) (u : List Char)
    (hu : isGibberishLine u = false) :
    ∀ (M rest : List (List Char)) (i : Nat) (cur : List (List Char)) (cnt sl : Nat),
      ∃ pre, gibGo lines (M ++ u :: rest) i cur cnt sl =
        pre ++ gibGo lines rest (i + M.length + 1) [] 0 0 := by
  intro M
  induction M with
  | nil =>
    intro rest i cur cnt sl
    refine ⟨if 3 ≤ cur.length ∧ 2 ≤ cnt then [mkGibBlock lines sl cur] else [], ?_⟩
    rw [List.nil_append]
    simp only [gibGo, hu]
    simp
  | cons m M' ih =>
    intro rest i cur cnt sl
    by_cases hm : isGibberishLine m = true
    · obtain ⟨pre, hpre⟩ := ih rest (i + 1) (cur ++ [m]) (cnt + 1)
        (if cur.isEmpty then i else sl)
      refine ⟨pre, ?_⟩
      rw [List.cons_append]
      have hstep : gibGo lines (m :: (M' ++ u :: rest)) i cur cnt sl =
          gibGo lines (M' ++ u :: rest) (i + 1) (cur ++ [m]) (cnt + 1)
            (if cur.isEmpty then i else sl) := by
        simp only [gibGo, hm, if_true]
      rw [hstep, hpre,
        show i + 1 + M'.length + 1 = i + (m :: M').length + 1 from by simp; omega]
    · obtain ⟨pre, hpre⟩ := ih rest (i + 1) [] 0 0
      refine ⟨(if 3 ≤ cur.length ∧ 2 ≤ cnt then [mkGibBlock lines sl cur] else []) ++ pre,
        ?_⟩
      rw [List.cons_append]
      have hstep : gibGo lines (m :: (M' ++ u :: rest)) i cur cnt sl =
          (if 3 ≤ cur.length ∧ 2 ≤ cnt then [mkGibBlock lines sl cur] else []) ++
            gibGo lines (M' ++ u :: rest) (i + 1) [] 0 0 := by
        simp only [gibGo, hm]
        simp
      rw [hstep, hpre, List.append_assoc,
        show i + 1 + M'.length + 1 = i + (m :: M').length + 1 from by simp; omega]

/-- When the scan hits a non-flagged line with a qualifying run
accumulated, the run's block is emitted. -/
theorem gibGo_emit_mem (lines : List (List Char)) (t : List Char)
    (w : List (List Char)) (i : Nat) (cur : List (List Char)) (cnt sl : Nat)
    (ht : isGibberishLine t = false) (h3 : 3 ≤ cur.length) (h2 : 2 ≤ cnt) :
    mkGibBlock lines sl cur ∈ gibGo lines (t :: w) i cur cnt sl := by
  simp only [gibGo, ht]
  rw [if_neg (by simp), if_pos ⟨h3, h2⟩]
  simp

/-- C4 counterexample: in `"a\n[]{}()\n[]{}()\n[]{}()"` the last three
lines form a maximal flagged run of length 3 (each line has punctuation
density 1 > 0.2), with no trailing line after it — yet the density-inferred
strategy emits nothing, because the scan loop only flushes a run when a
later non-flagged line is reached.  This refutes the claim that such a run
at the end of input is emitted. -/
theorem gibberish_trailing_run_counterexample :
    gibberishBlocks "a\n[]\x7b\x7d()\n[]\x7b\x7d()\n[]\x7b\x7d()".data = [] ∧
      detectBlocks "a\n[]\x7b\x7d()\n[]\x7b\x7d()\n[]\x7b\x7d()".data = [] ∧
      pySplit "a\n[]\x7b\x7d()\n[]\x7b\x7d()\n[]\x7b\x7d()".data =
        ["a".data, "[]\x7b\x7d()".data, "[]\x7b\x7d()".data, "[]\x7b\x7d()".data] ∧
      isGibberishLine "[]\x7b\x7d()".data = true ∧
      isGibberishLine "a".data = false := by
  refine ⟨by decide, by decide, by decide, by decide, by decide⟩

/-- C4 amended: every maximal run of consecutive lines flagged by the
punctuation-density test that has at least 3 lines (hence at least 2
flagged lines) and is followed by a further, non-flagged line is emitted by
the density-inferred strategy as a candidate block; a qualifying run that
extends to the last line of the input, with no line after it, is discarded
(see the counterexample). -/
theorem gibberish_run_emitted (text : List Char) (p v w : List (List Char)) (t : List Char)
    (hsplit : pySplit text = p ++ v ++ t :: w)
    (hp : ∀ x, p.getLast? = some x → isGibberishLine x = false)
    (hv : ∀ x ∈ v, isGibberishLine x = true)
    (hlen : 3 ≤ v.length)
    (ht : isGibberishLine t = false) :
    mkGibBlock (pySplit text) p.length v ∈ gibberishBlocks text := by
  have hvne : v ≠ [] := by
    intro hc
    rw [hc] at hlen
    simp at hlen
  have hgb : gibberishBlocks text = gibGo (pySplit text) (pySplit text) 0 [] 0 0 := rfl
  rw [hgb, hsplit]
  rcases List.eq_nil_or_concat p with hnil | ⟨p', u, hcat⟩
  · subst hnil
    rw [List.nil_append,
      gibGo_run (v ++ t :: w) v (t :: w) 0 [] 0 0 hv]
    rw [show (if ([] : List (List Char)).isEmpty then (if v.isEmpty then 0 else 0)
        else 0) = 0 from by simp]
    simpa using gibGo_emit_mem (v ++ t :: w) t w v.length v v.length 0 ht
      (by omega) (by omega)
  · subst hcat
    rw [List.concat_eq_append] at hp ⊢
    have hu : isGibberishLine u = false := hp u (by simp)
    have harr : (p' ++ [u]) ++ v ++ t :: w = p' ++ u :: (v ++ t :: w) := by
      simp
    rw [harr]
    obtain ⟨pre, hpre⟩ :=
      gibGo_reach (p' ++ u :: (v ++ t :: w)) u hu p' (v ++ t :: w) 0 [] 0 0
    rw [hpre, gibGo_run (p' ++ u :: (v ++ t :: w)) v (t :: w) (0 + p'.length + 1)
      [] 0 0 hv]
    rw [show (if ([] : List (List Char)).isEmpty then
        (if v.isEmpty then 0 else 0 + p'.length + 1) else 0) = p'.length + 1 from by
      rw [if_pos (by simp), if_neg (by simpa [List.isEmpty_iff] using hvne)]
      omega]
    have hmem := gibGo_emit_mem (p' ++ u :: (v ++ t :: w)) t w
      (0 + p'.length + 1 + v.length) v (0 + v.length) (p'.length + 1) ht
      (by omega) (by omega)
    rw [show (p' ++ [u]).length = p'.length + 1 from by simp]
    simp only [List.nil_append]
    exact List.mem_append_right pre hmem

/-- Witness for the C4 amended theorem: the same three-line run followed by
a plain line is emitted. -/
theorem gibberish_run_emitted_witness :
    mkGibBlock (pySplit "a\n[]\x7b\x7d()\n[]\x7b\x7d()\n[]\x7b\x7d()\nend".data)
        1 ["[]\x7b\x7d()".data, "[]\x7b\x7d()".data, "[]\x7b\x7d()".data] ∈
      gibberishBlocks "a\n[]\x7b\x7d()\n[]\x7b\x7d()\n[]\x7b\x7d()\nend".data := by
  have h := gibberish_run_emitted "a\n[]\x7b\x7d()\n[]\x7b\x7d()\n[]\x7b\x7d()\nend".data
    ["a".data] ["[]\x7b\x7d()".data, "[]\x7b\x7d()".data, "[]\x7b\x7d()".data] []
    "end".data (by decide) (by decide) (by decide) (by decide) (by decide)
  simpa using h

-- ------------------------------------------------------------------
-- Claim C5
-- ------------------------------------------------------------------

/-- C5 (code bug): the claim — and the spec — say a block whose code
contains the keyword `classdiagram` (case-insensitively) is inferred as
`mermaid`.  The code lowercases the input but lists the keyword as
`classDiagram` with a capital `D`, so that entry can never match; the input
`"classdiagram"` instead matches the plantuml keyword `class` and is
classified `plantuml`.  This theorem evaluates the code at the failing
input: the mermaid table misses it although it is a case-insensitive
substring, and the result is `plantuml`. -/
theorem infer_language_classdiagram_bug :
    inferLanguage "classdiagram".data = "plantuml".data ∧
      pyContains (pyLower "classdiagram".data) "classdiagram".data = true ∧
      mermaidInferKeywords.any
        (fun k => pyContains (pyStrip (pyLower "classdiagram".data)) k) = false := by
  refine ⟨by decide, by decide, by decide⟩

-- ------------------------------------------------------------------
-- Helper lemmas on the mermaid issue strings
-- ------------------------------------------------------------------

theorem unbalancedIssue_head (n : Nat) : (unbalancedIssue n).head? = some 'L' := rfl

theorem unbalancedIssue_ne_header (n : Nat) : unbalancedIssue n ≠ headerIssueMsg := by
  intro h
  have h2 := congrArg List.head? h
  rw [unbalancedIssue_head] at h2
  have h3 : headerIssueMsg.head? = some 'M' := rfl
  rw [h3] at h2
  simp at h2

theorem unbalancedIssue_ne_guard (n : Nat) : unbalancedIssue n ≠ guardIssueMsg := by
  intro h
  have h2 := congrArg List.head? h
  rw [unbalancedIssue_head] at h2
  have h3 : guardIssueMsg.head? = some 'N' := rfl
  rw [h3] at h2
  simp at h2

theorem header_ne_guard : headerIssueMsg ≠ guardIssueMsg := by decide

theorem unbalancedIssue_inj {n m : Nat} (h : unbalancedIssue n = unbalancedIssue m) :
    n = m := by
  unfold unbalancedIssue at h
  have h2 : "Line ".data ++ natDec n = "Line ".data ++ natDec m :=
    List.append_cancel_right h
  exact natDec_injective (List.append_cancel_left h2)

theorem enumG_mem {α : Type} (k j : Nat) (x : α) (l : List α) :
    (j, x) ∈ enumG k l ↔ ∃ m, j = k + m ∧ l[m]? = some x := by
  induction l generalizing k with
  | nil => simp [enumG]
  | cons a t ih =>
    simp only [enumG, List.mem_cons]
    constructor
    · rintro (h | h)
      · have h1 : j = k := congrArg Prod.fst h
        have h2 : x = a := congrArg Prod.snd h
        exact ⟨0, by omega, by rw [h2]; simp⟩
      · obtain ⟨m, hm, hx⟩ := (ih (k + 1)).mp h
        exact ⟨m + 1, by omega, by simpa using hx⟩
    · rintro ⟨m, hm, hx⟩
      cases m with
      | zero =>
        left
        simp at hx
        rw [hm, hx]
        simp
      | succ m' =>
        right
        exact (ih (k + 1)).mpr ⟨m', by omega, by simpa using hx⟩

/-- A list that starts with its pattern contains it. -/
theorem pyContains_of_take {l sub : List Char} (h : l.take sub.length = sub) :
    pyContains l sub = true := by
  have h2 := List.take_append_drop sub.length l
  rw [h] at h2
  exact (pyContains_iff l sub).mpr
    ⟨[], l.drop sub.length, by rw [List.nil_append]; exact h2.symm⟩

/-- Shape of the issues recorded for one line: a bracket issue for that
line, or the header issue. -/
theorem fixMermaidLine_snd_mem {i : Nat} {l x : List Char}
    (hx : x ∈ (fixMermaidLine i l).2) :
    x = unbalancedIssue (i + 1) ∨ x = headerIssueMsg := by
  simp only [fixMermaidLine] at hx
  rcases List.mem_append.mp hx with h | h
  · simp at h
    exact Or.inl h.2
  · simp at h
    exact Or.inr h.2

/-- If the header issue was recorded for a line, that line was line 0 and
`'graph TD'` was prepended to its contribution. -/
theorem fixMermaidLine_header {i : Nat} {l : List Char}
    (hx : headerIssueMsg ∈ (fixMermaidLine i l).2) :
    i = 0 ∧ ∃ l2, (fixMermaidLine i l).1 = ["graph TD".data, l2] := by
  have hmem := hx
  simp only [fixMermaidLine] at hmem
  rcases List.mem_append.mp hmem with h | h
  · simp at h
    exact absurd h.2.symm (unbalancedIssue_ne_header (i + 1))
  · simp at h
    refine ⟨h.1, ?_⟩
    simp only [fixMermaidLine]
    rw [if_pos (⟨h.1, by simpa using h.2⟩ : _ ∧ _)]
    exact ⟨_, rfl⟩

theorem mermaidLineIssues_mem {code x : List Char} (hx : x ∈ mermaidLineIssues code) :
    ∃ p : Nat × List Char, p ∈ enumG 0 (pySplit code) ∧ x ∈ (fixMermaidLine p.1 p.2).2 := by
  unfold mermaidLineIssues at hx
  obtain ⟨lst, hlst, hxl⟩ := List.mem_flatten.mp hx
  obtain ⟨pr, hpr, rfl⟩ := List.mem_map.mp hlst
  obtain ⟨p, hp, rfl⟩ := List.mem_map.mp hpr
  exact ⟨p, hp, hxl⟩

theorem mermaidLineIssues_mem_of {code line : List Char} {i : Nat}
    (hline : (pySplit code)[i]? = some line) {x : List Char}
    (hx : x ∈ (fixMermaidLine i line).2) : x ∈ mermaidLineIssues code := by
  unfold mermaidLineIssues
  refine List.mem_flatten.mpr ⟨(fixMermaidLine i line).2, ?_, hx⟩
  refine List.mem_map.mpr ⟨fixMermaidLine i line, ?_, rfl⟩
  refine List.mem_map.mpr ⟨(i, line), ?_, rfl⟩
  exact (enumG_mem 0 i line (pySplit code)).mpr ⟨i, by omega, hline⟩

/-- When the per-line header fix ran, the reassembled code starts with
`graph TD`, so the guard's 50-character keyword check succeeds. -/
theorem mermaid_guard_true_of_header {code : List Char}
    (hx : headerIssueMsg ∈ mermaidLineIssues code) :
    mermaidGuardKeywords.any
      (fun k => pyContains ((pyLower (pyJoin (mermaidFixedLines code))).take 50) k)
      = true := by
  obtain ⟨⟨i, pl⟩, hp, hmem⟩ := mermaidLineIssues_mem hx
  obtain ⟨hi0, l2, hfst⟩ := fixMermaidLine_header hmem
  subst hi0
  obtain ⟨m, hm, hx0⟩ := (enumG_mem 0 0 pl (pySplit code)).mp hp
  have hm0 : m = 0 := by omega
  subst hm0
  obtain ⟨l0, rest, hL⟩ : ∃ l0 rest, pySplit code = l0 :: rest := by
    cases h : pySplit code with
    | nil => exact absurd h (pySplit_ne_nil code)
    | cons a b => exact ⟨a, b, rfl⟩
  rw [hL] at hx0
  simp at hx0
  subst hx0
  have h1 : enumG 0 (l0 :: rest) = (0, l0) :: enumG 1 rest := rfl
  have hfl : ∃ R, mermaidFixedLines code = "graph TD".data :: l2 :: R := by
    unfold mermaidFixedLines
    rw [hL, h1]
    simp only [List.map_cons, List.flatten_cons]
    rw [hfst]
    exact ⟨_, rfl⟩
  obtain ⟨R, hfl⟩ := hfl
  apply List.any_eq_true.mpr
  refine ⟨"graph".data, by decide, ?_⟩
  show pyContains ((pyLower (pyJoin (mermaidFixedLines code))).take 50) "graph".data
    = true
  rw [hfl]
  apply pyContains_of_take
  rfl

/-- The per-line header fix and the final guard are mutually exclusive. -/
theorem fixMermaid_header_excl_guard (code : List Char)
    (hx : headerIssueMsg ∈ (fixMermaid code).2) :
    guardIssueMsg ∉ (fixMermaid code).2 := by
  have hline : headerIssueMsg ∈ mermaidLineIssues code := by
    have hx2 := hx
    simp only [fixMermaid] at hx2
    split at hx2
    · exact hx2
    · rcases List.mem_append.mp hx2 with h | h
      · exact h
      · simp at h
        exact absurd h header_ne_guard
  have hguard := mermaid_guard_true_of_header hline
  simp only [fixMermaid]
  rw [if_pos hguard]
  intro hg
  obtain ⟨p, _, hm⟩ := mermaidLineIssues_mem hg
  rcases fixMermaidLine_snd_mem hm with h | h
  · exact unbalancedIssue_ne_guard (p.1 + 1) h.symm
  · exact header_ne_guard h.symm

-- ------------------------------------------------------------------
-- Claim C6
-- ------------------------------------------------------------------

/-- C6 counterexample: the claim asserts that for some input both the
per-line missing-header fix and the final guard trigger, producing a double
`graph TD` prefix.  This proves its negation: no code string has both
issues recorded — whenever the per-line fix runs, the reassembled code
starts with `graph TD`, so the guard's 50-character keyword check passes
and the guard does not run. -/
theorem mermaid_double_prefix_never :
    ¬ ∃ code : List Char,
      headerIssueMsg ∈ (fixMermaid code).2 ∧ guardIssueMsg ∈ (fixMermaid code).2 := by
  rintro ⟨code, h1, h2⟩
  exact fixMermaid_header_excl_guard code h1 h2

/-- C6 amended: the per-line missing-header fix and the final guard are
mutually exclusive — if the per-line fix recorded its issue (so a
`graph TD` line was inserted at the front of the reassembled code), the
final guard finds `graph` within the first 50 characters and never
prepends a second `graph TD`.  No input produces a double prefix. -/
theorem mermaid_header_guard_exclusive (code : List Char)
    (h : headerIssueMsg ∈ (fixMermaid code).2) :
    guardIssueMsg ∉ (fixMermaid code).2 :=
  fixMermaid_header_excl_guard code h

/-- Witness for C6 amended: `"A --> B"` triggers the per-line header fix,
and the guard issue is then absent. -/
theorem mermaid_header_guard_exclusive_witness :
    guardIssueMsg ∉ (fixMermaid "A --> B".data).2 :=
  mermaid_header_guard_exclusive "A --> B".data (by decide)

-- ------------------------------------------------------------------
-- Claim C7
-- ------------------------------------------------------------------

theorem fixMermaidLine_unbalanced {i j : Nat} {l : List Char}
    (h : unbalancedIssue (j + 1) ∈ (fixMermaidLine i l).2) :
    i = j ∧ bracketOpenCount l ≠ bracketCloseCount l := by
  simp only [fixMermaidLine] at h
  rcases List.mem_append.mp h with h | h
  · simp at h
    have hji : j + 1 = i + 1 := unbalancedIssue_inj h.2
    exact ⟨by omega, h.1⟩
  · simp at h
    exact absurd h.2 (unbalancedIssue_ne_header (j + 1))

theorem fixMermaidLine_unbalanced_of {i : Nat} {l : List Char}
    (h : bracketOpenCount l ≠ bracketCloseCount l) :
    unbalancedIssue (i + 1) ∈ (fixMermaidLine i l).2 := by
  simp only [fixMermaidLine]
  apply List.mem_append_left
  rw [if_pos h]
  simp

theorem fixMermaid_mem_iff_lineIssues {code x : List Char}
    (hx : x ≠ guardIssueMsg) :
    x ∈ (fixMermaid code).2 ↔ x ∈ mermaidLineIssues code := by
  simp only [fixMermaid]
  split
  · exact Iff.rfl
  · constructor
    · intro h
      rcases List.mem_append.mp h with h | h
      · exact h
      · simp at h
        exact absurd h hx
    · intro h
      exact List.mem_append_left _ h

/-- C7 amended: repair records an "unbalanced brackets" issue for a line
(1-based number) precisely when that line's count of `[`, `(`, `{` DIFFERS
from its count of `]`, `)`, `}` — also when close-count exceeds open-count,
in which case nothing is appended (the claim's "precisely when open exceeds
close" is refuted by the counterexample).  When open-count exceeds
close-count, exactly the missing number of `]` characters is appended: on
`"graph TD\n    A[Start] --> B{Decision"` exactly one `]` is appended to
line 2 and exactly that one issue is recorded. -/
theorem mermaid_unbalanced_issue_iff :
    (∀ (code : List Char) (i : Nat) (line : List Char),
      (pySplit code)[i]? = some line →
      (unbalancedIssue (i + 1) ∈ (fixMermaid code).2 ↔
        bracketOpenCount line ≠ bracketCloseCount line)) ∧
    fixMermaid "graph TD\n    A[Start] --> B\x7bDecision".data =
      ("graph TD\n    A[Start] --> B\x7bDecision]".data, [unbalancedIssue 2]) := by
  constructor
  · intro code i line hline
    rw [fixMermaid_mem_iff_lineIssues (unbalancedIssue_ne_guard (i + 1))]
    constructor
    · intro h
      obtain ⟨p, hp, hmem⟩ := mermaidLineIssues_mem h
      obtain ⟨hpi, hcond⟩ := fixMermaidLine_unbalanced hmem
      obtain ⟨m, hm, hx0⟩ := (enumG_mem 0 p.1 p.2 (pySplit code)).mp (by
        cases p
        exact hp)
      have hmi : m = i := by omega
      subst hmi
      rw [hline] at hx0
      simp at hx0
      rw [hx0]
      exact hcond
    · intro h
      exact mermaidLineIssues_mem_of hline (fixMermaidLine_unbalanced_of h)
  · decide

/-- C7 counterexample: on `"graph TD\nA]"` line 2 has close-count exceeding
open-count; no bracket is appended, yet the "unbalanced brackets" issue IS
recorded for line 2 — refuting the claim that the issue is recorded
precisely when open-count exceeds close-count. -/
theorem mermaid_unbalanced_counterexample :
    fixMermaid "graph TD\nA]".data = ("graph TD\nA]".data, [unbalancedIssue 2]) ∧
      bracketOpenCount "A]".data ≤ bracketCloseCount "A]".data ∧
      (pySplit "graph TD\nA]".data)[1]? = some "A]".data := by
  refine ⟨by decide, by decide, by decide⟩

/-- Witness for C7 amended at line 1 of the concrete example. -/
theorem mermaid_unbalanced_issue_iff_witness :
    unbalancedIssue 2 ∈ (fixMermaid "graph TD\n    A[Start] --> B\x7bDecision".data).2 ↔
      bracketOpenCount "    A[Start] --> B\x7bDecision".data ≠
        bracketCloseCount "    A[Start] --> B\x7bDecision".data :=
  mermaid_unbalanced_issue_iff.1 "graph TD\n    A[Start] --> B\x7bDecision".data 1
    "    A[Start] --> B\x7bDecision".data (by decide)

-- ------------------------------------------------------------------
-- Claim C8
-- ------------------------------------------------------------------

theorem endsWithL_iff {l pat : List Char} :
    endsWithL l pat = true ↔ ∃ z, l = z ++ pat := by
  unfold endsWithL
  simp only [decide_eq_true_eq]
  constructor
  · intro h
    refine ⟨l.take (l.length - pat.length), ?_⟩
    conv_lhs => rw [← List.take_append_drop (l.length - pat.length) l]
    rw [h]
  · rintro ⟨z, rfl⟩
    rw [List.length_append, Nat.add_sub_cancel]
    exact List.drop_left z pat

theorem bool_eq_of_iff {a b : Bool} (h : a = true ↔ b = true) : a = b := by
  cases a <;> cases b <;> simp_all

theorem getLast?_mem_self {l : List Char} {a : Char} (h : l.getLast? = some a) :
    a ∈ l := by
  induction l with
  | nil => simp at h
  | cons c t ih =>
    cases t with
    | nil =>
      simp [List.getLast?] at h
      simp [h]
    | cons d t' =>
      rw [List.getLast?_cons_cons] at h
      simp [ih h]

/-- Prepending the `@startuml` line does not change whether the stripped
code ends with `@enduml`: the appended-line case analysis of
`_fix_plantuml`'s second check reduces to a check on the original input. -/
theorem plantuml_ends_aux (rc : List Char) :
    endsWithL ("@startuml\n".data ++ rc) "@enduml".data =
      endsWithL (pyLStrip rc) "@enduml".data := by
  apply bool_eq_of_iff
  rw [endsWithL_iff, endsWithL_iff]
  constructor
  · rintro ⟨z, hz⟩
    have hsplit := List.append_eq_append_iff.mp hz
    rcases hsplit with ⟨a', ha1, ha2⟩ | ⟨c', hc1, hc2⟩
    · -- the suffix lies inside rc
      refine ?_
      rw [ha2, pyLStrip_append]
      by_cases h : pyLStrip a' = []
      · rw [if_pos h]
        exact ⟨[], by decide⟩
      · rw [if_neg h]
        exact ⟨pyLStrip a', rfl⟩
    · -- the suffix reaches into "@startuml\n": only possible when it is
      -- exactly rc itself, since no character of "@enduml" is a newline
      cases hc'e : c' with
      | nil =>
        rw [hc'e, List.nil_append] at hc2
        refine ⟨[], ?_⟩
        rw [← hc2]
        decide
      | cons c0 cs =>
        exfalso
        rw [hc'e] at hc1 hc2
        have hne : (c0 :: cs : List Char) ≠ [] := by simp
        obtain ⟨lc, hlc⟩ : ∃ lc, (c0 :: cs : List Char).getLast? = some lc := by
          cases h : (c0 :: cs : List Char).getLast? with
          | none => simp at h
          | some a => exact ⟨a, rfl⟩
        have hlast : ("@startuml\n".data : List Char).getLast? = some lc := by
          rw [hc1, List.getLast?_append, hlc]
          rfl
        have hnl : lc = '\n' := by
          have : ("@startuml\n".data : List Char).getLast? = some '\n' := by decide
          rw [this] at hlast
          simpa using hlast.symm
        have hmem : lc ∈ ("@enduml".data : List Char) := by
          rw [hc2]
          exact List.mem_append_left _ (getLast?_mem_self hlc)
        rw [hnl] at hmem
        exact absurd hmem (by decide)
  · rintro ⟨z, hz⟩
    have hrc : rc = rc.takeWhile isPySpace ++ pyLStrip rc :=
      (List.takeWhile_append_dropWhile _ _).symm
    refine ⟨"@startuml\n".data ++ (rc.takeWhile isPySpace ++ z), ?_⟩
    calc "@startuml\n".data ++ rc
        = "@startuml\n".data ++ (rc.takeWhile isPySpace ++ (z ++ "@enduml".data)) := by
          rw [← hz, ← hrc]
      _ = "@startuml\n".data ++ (rc.takeWhile isPySpace ++ z) ++ "@enduml".data := by
          simp [List.append_assoc]

/-- The second check of `_fix_plantuml` runs on the possibly-prepended
code, but its outcome equals the check on the trimmed original input. -/
theorem fixPlantuml_end_check (code : List Char) :
    endsWithL (pyStrip ("@startuml\n".data ++ code)) "@enduml".data =
      endsWithL (pyStrip code) "@enduml".data := by
  by_cases hrc : pyRStrip code = []
  · rw [pyStrip, pyStrip, pyRStrip_append "@startuml\n".data code, if_pos hrc, hrc]
    decide
  · rw [pyStrip, pyStrip, pyRStrip_append "@startuml\n".data code, if_neg hrc,
      pyLStrip_append, if_neg (by decide),
      show pyLStrip "@startuml\n".data = "@startuml\n".data from by decide]
    exact plantuml_ends_aux (pyRStrip code)

/-- C8: plantuml repair prepends an `@startuml` line and records the
start-tag issue exactly when the trimmed input does not start with
`@startuml`, and appends an `@enduml` line and records the end-tag issue
exactly when the trimmed input does not end with `@enduml`, the start-tag
issue coming first; concretely, `"actor User"` becomes
`"@startuml\nactor User\n@enduml"` with exactly those two issues. -/
theorem plantuml_fix_characterization :
    (∀ code : List Char, fixPlantuml code =
      ((if startsWithL (pyStrip code) "@startuml".data then code
        else "@startuml\n".data ++ code) ++
        (if endsWithL (pyStrip code) "@enduml".data then [] else "\n@enduml".data),
       (if startsWithL (pyStrip code) "@startuml".data then [] else [startTagIssueMsg]) ++
        (if endsWithL (pyStrip code) "@enduml".data then [] else [endTagIssueMsg]))) ∧
    fixPlantuml "actor User".data =
      ("@startuml\nactor User\n@enduml".data, [startTagIssueMsg, endTagIssueMsg]) := by
  constructor
  · intro code
    simp only [fixPlantuml]
    by_cases hp1 : startsWithL (pyStrip code) "@startuml".data = true
    · simp only [if_pos hp1]
      by_cases hp2 : endsWithL (pyStrip code) "@enduml".data = true
      · simp only [if_pos hp2]
        simp
      · simp only [if_neg hp2]
    · simp only [if_neg hp1, fixPlantuml_end_check]
      by_cases hp2 : endsWithL (pyStrip code) "@enduml".data = true
      · simp only [if_pos hp2]
        simp
        exact (fixPlantuml_end_check code).trans hp2
      · simp only [if_neg hp2]
        simp [List.append_assoc]
        exact (fixPlantuml_end_check code).trans (by simpa using hp2)
  · decide

-- ------------------------------------------------------------------
-- Claim C9
-- ------------------------------------------------------------------

/-- C9: for every code string and every language tag other than
`mermaid`, `plantuml` or `dot` — including `unknown` and arbitrary
unrecognized tags — `validate_and_fix` returns the input unchanged with an
empty issue list.  (The embedding is a total function, so no exception can
be raised for any input.) -/
theorem validate_unknown_language_noop :
    ∀ code language : List Char,
      language ≠ "mermaid".data → language ≠ "plantuml".data →
      language ≠ "dot".data → validateAndFix code language = (code, []) := by
  intro code language h1 h2 h3
  simp only [validateAndFix, if_neg h1, if_neg h2, if_neg h3]

/-- Witness for C9 at the `unknown` tag. -/
theorem validate_unknown_language_noop_witness :
    validateAndFix "A --> B".data "unknown".data = ("A --> B".data, []) :=
  validate_unknown_language_noop "A --> B".data "unknown".data
    (by decide) (by decide) (by decide)

-- ------------------------------------------------------------------
-- Claim C10
-- ------------------------------------------------------------------

/-- C10: any code containing `graph` as a case-insensitive substring is
classified `mermaid` — the mermaid keyword set is checked first and
contains `graph` — so DOT source declaring `digraph`, `graph` or
`subgraph` is never classified as `dot`. -/
theorem infer_language_graph_mermaid :
    ∀ code : List Char, pyContains (pyLower code) "graph".data = true →
      inferLanguage code = "mermaid".data ∧ inferLanguage code ≠ "dot".data := by
  intro code h
  have hs : pyContains (pyStrip (pyLower code)) "graph".data = true :=
    pyContains_pyStrip h (by decide) (by decide)
  have hany : mermaidInferKeywords.any
      (fun k => pyContains (pyStrip (pyLower code)) k) = true :=
    List.any_eq_true.mpr ⟨"graph".data, by decide, hs⟩
  have hm : inferLanguage code = "mermaid".data := by
    simp only [inferLanguage]
    rw [if_pos hany]
  exact ⟨hm, by rw [hm]; decide⟩

/-- Witness for C10 on DOT source declaring `digraph`. -/
theorem infer_language_graph_mermaid_witness :
    inferLanguage "digraph G \x7b a -> b; \x7d".data = "mermaid".data ∧
      inferLanguage "digraph G \x7b a -> b; \x7d".data ≠ "dot".data :=
  infer_language_graph_mermaid "digraph G \x7b a -> b; \x7d".data (by decide)

end LDP
